import Mathlib

/-!
Verification development for the `uniqseq` repository (streaming multi-line
sequence deduplication).

The Python sources under `src/src/uniqseq/` are shallowly embedded below:

* `PositionalFIFO` (uniqseq.py, lines 48-121): positional window-hash history
  with a reverse index, embedded verbatim as a Lean structure; fallible
  dictionary accesses are modelled with `Except PyError`.
* `hash_line` / `hash_window` (uniqseq.py, lines 124-158): the Blake2b digest
  itself is an external library call (`hashlib`), so it is a parameter of the
  embedding; the code around it (prefix skipping, length tagging, joining) is
  translated directly.
* `evaluate_filter` (filtering.py / `UniqSeq._evaluate_filter`): regex search
  is external, so a pattern carries an abstract `search` predicate.
* The `UniqSeq` engine (uniqseq.py): `process_line`, `_emit_merged_lines`,
  `flush`, `_handle_subsequence_matches`, `_update_sequence_candidates`,
  `_check_for_new_uniq_matches`, `_record_sequence`,
  `_initialize_preloaded_sequences` are translated phase by phase.  Records are
  an arbitrary type with decidable equality (the source handles `str` and
  `bytes` uniformly); line and window fingerprints are abstract values produced
  by parameter functions, mirroring the source's use of digests purely as
  equality keys.  Python `dict`s are embedded as insertion-ordered association
  lists, Python `deque`s as lists.
* `validate_arguments` plus the filter/byte-mode check of `main` (cli.py).

Modelled from the spec: the classes `RecordedSequence` / `HistorySequence`
referenced by `uniqseq.py` live in a module `recording.py` that is imported by
`src/src/uniqseq/matching.py` but absent from the source tree (the dataclass
stubs in `uniqseq.py` lack the fields and methods the call sites use, and the
tests construct the real classes with other signatures).  Their fields are
taken from the constructor call sites in `uniqseq.py`, and `advance_match` /
`get_matched_length` / `finalize_match` follow spec section 4.4 together with
the transitional implementations kept in `uniqseq.py` itself
(`_update_potential_uniq_matches`, `_update_new_sequence_candidates`,
`_record_sequence`).  Matched lengths are counted in lines
(`window_size + windows_advanced`), as in `PotentialSeqRecMatch.get_length`.
-/

namespace Uniqseq

/-- Python runtime errors that the embedded code can raise. -/
inductive PyError where
  | keyError
  | valueError
  | typeError
  | indexError
  | overflowError
deriving DecidableEq, Repr

/-- Values that flow into the `first_output_line` fields in the source: `None`,
the sentinel `float("-inf")` (`PRELOADED_SEQUENCE_LINE`), or an integer. -/
inductive FOL where
  | none
  | ninf
  | int (z : Int)
deriving DecidableEq, Repr

/-- Python comparison `a < b` on `first_output_line` values: comparing `None`
with anything raises `TypeError`; `float("-inf")` is below every integer. -/
def FOL.pyLt : FOL → FOL → Except PyError Bool
  | .none, _ => .error .typeError
  | _, .none => .error .typeError
  | .ninf, .ninf => .ok false
  | .ninf, .int _ => .ok true
  | .int _, .ninf => .ok false
  | .int a, .int b => .ok (decide (a < b))

/-- Python `int(x)` on a `first_output_line` value: `int(None)` raises
`TypeError` and `int(float("-inf"))` raises `OverflowError`. -/
def FOL.toInt : FOL → Except PyError Int
  | .none => .error .typeError
  | .ninf => .error .overflowError
  | .int z => .ok z

/-- Lift an optional output line number (a `HistoryEntry.first_output_line`)
into the `FOL` value space. -/
def FOL.ofOpt : Option Nat → FOL
  | Option.none => .none
  | Option.some n => .int n

section Alist

variable {K V : Type} [DecidableEq K]

/-- Lookup in an insertion-ordered association list (Python `dict.get`). -/
def getA (l : List (K × V)) (k : K) : Option V :=
  (l.find? (fun p => decide (p.1 = k))).map (·.2)

/-- Python `k in d`. -/
def memA (l : List (K × V)) (k : K) : Bool :=
  (getA l k).isSome

/-- Python `d[k] = v`: replace in place if the key exists (keeping its
insertion position), otherwise append at the end. -/
def setA (l : List (K × V)) (k : K) (v : V) : List (K × V) :=
  match l with
  | [] => [(k, v)]
  | (k₀, v₀) :: rest =>
    if k₀ = k then (k₀, v) :: rest else (k₀, v₀) :: setA rest k v

/-- Python `del d[k]` (on a key assumed present; deleting an absent key is a
separate `KeyError` which callers check via `getA`). -/
def delA (l : List (K × V)) (k : K) : List (K × V) :=
  match l with
  | [] => []
  | (k₀, v₀) :: rest =>
    if k₀ = k then rest else (k₀, v₀) :: delA rest k

/-- Update the value at a key with `f` if present; otherwise leave the list
unchanged.  Used to model in-place mutation of a dict entry. -/
def modifyA (l : List (K × V)) (k : K) (f : V → V) : List (K × V) :=
  match l with
  | [] => []
  | (k₀, v₀) :: rest =>
    if k₀ = k then (k₀, f v₀) :: rest else (k₀, v₀) :: modifyA rest k f

end Alist

/-- Python `list.remove(x)`: removes the first occurrence, raising
`ValueError` when absent. -/
def pyRemove [DecidableEq α] : List α → α → Except PyError (List α)
  | [], _ => .error .valueError
  | a :: rest, x =>
    if a = x then .ok rest
    else do
      let r ← pyRemove rest x
      .ok (a :: r)

/-- Python `min` over a nonempty list of naturals (raises `ValueError` on an
empty list). -/
def pyMinNat : List Nat → Except PyError Nat
  | [] => .error .valueError
  | a :: rest => .ok (rest.foldl (fun m x => if x < m then x else m) a)

/-- Python `max(items, key=f)` with a `Nat`-valued key: returns the first
maximal element, raising `ValueError` on an empty list. -/
def pyMaxBy (l : List α) (f : α → Nat) : Except PyError α :=
  match l with
  | [] => .error .valueError
  | a :: rest => .ok (rest.foldl (fun m x => if f x > f m then x else m) a)

/-- Python `min(items, key=f)` with an `FOL`-valued key: iterates keeping the
current minimum; each comparison can raise `TypeError` (`None` keys). -/
def pyMinByFOL (l : List α) (f : α → FOL) : Except PyError α :=
  match l with
  | [] => .error .valueError
  | a :: rest =>
    rest.foldlM (fun m x => do
      let lt ← FOL.pyLt (f x) (f m)
      .ok (if lt then x else m)) a

/-- Python negative indexing `l[-k]`: valid when `1 ≤ k ≤ len(l)`, otherwise
`IndexError`. -/
def pyNegIdx (l : List α) (k : Nat) : Except PyError α :=
  if 1 ≤ k ∧ k ≤ l.length then
    match (l.drop (l.length - k)).head? with
    | Option.some a => Except.ok a
    | Option.none => Except.error PyError.indexError
  else Except.error PyError.indexError

/-- Auxiliary loop for `pySplit`, structurally recursive on fuel (one
character is consumed per step, so `length + 1` steps suffice for a nonempty
separator). -/
def pySplitGo [DecidableEq α] (sep : List α) : Nat → List α → List α → List (List α)
  | 0, _, acc => [acc.reverse]
  | _ + 1, [], acc => [acc.reverse]
  | fuel + 1, x :: xs, acc =>
    if sep.isPrefixOf (x :: xs) then
      acc.reverse :: pySplitGo sep fuel (List.drop sep.length (x :: xs)) []
    else pySplitGo sep fuel xs (x :: acc)

/-- Python `s.split(sep)` for a nonempty separator: left-to-right scan,
splitting at each occurrence of `sep`. -/
def pySplit (s : String) (sep : String) : List String :=
  (pySplitGo sep.data (s.data.length + 1) s.data []).map (fun cs => String.mk cs)

/-! ### PositionalFIFO (uniqseq.py, lines 48-121) -/

/-- An entry in the window hash history (uniqseq.py, `HistoryEntry`). -/
structure HistoryEntry (H : Type) where
  window_hash : H
  first_output_line : Option Nat
deriving DecidableEq, Repr

/-- Positional FIFO for window hash history (uniqseq.py, `PositionalFIFO`).
`position_to_entry` and `key_to_positions` are the two dictionaries of the
source, embedded as insertion-ordered association lists. -/
structure PositionalFIFO (H : Type) where
  maxsize : Option Nat
  position_to_entry : List (Nat × HistoryEntry H)
  key_to_positions : List (H × List Nat)
  next_position : Nat
  oldest_position : Nat
deriving DecidableEq, Repr

/-- The freshly constructed FIFO (`PositionalFIFO.__init__`). -/
def PositionalFIFO.init (H : Type) (maxsize : Option Nat) : PositionalFIFO H :=
  { maxsize := maxsize
    position_to_entry := []
    key_to_positions := []
    next_position := 0
    oldest_position := 0 }

/-- `PositionalFIFO.append`: add a key, returning its position; evicts the
oldest entry first when at capacity (skipped when unlimited).  The dictionary
accesses of the eviction branch can raise `KeyError` / `ValueError`. -/
def PositionalFIFO.append [DecidableEq H] (f : PositionalFIFO H) (key : H) :
    Except PyError (PositionalFIFO H × Nat) := do
  let position := f.next_position
  let f ←
    match f.maxsize with
    | Option.none => Except.ok f
    | Option.some m =>
      if f.position_to_entry.length ≥ m then do
        let old_entry ←
          match getA f.position_to_entry f.oldest_position with
          | Option.none => Except.error PyError.keyError
          | Option.some e => Except.ok e
        let old_key := old_entry.window_hash
        let old_list ←
          match getA f.key_to_positions old_key with
          | Option.none => Except.error PyError.keyError
          | Option.some l => Except.ok l
        let new_list ← pyRemove old_list f.oldest_position
        let k2p :=
          if new_list.isEmpty then delA f.key_to_positions old_key
          else setA f.key_to_positions old_key new_list
        Except.ok { f with
          position_to_entry := delA f.position_to_entry f.oldest_position
          key_to_positions := k2p
          oldest_position := f.oldest_position + 1 }
      else Except.ok f
  let entry : HistoryEntry H := { window_hash := key, first_output_line := Option.none }
  let p2e := setA f.position_to_entry position entry
  let k2p :=
    match getA f.key_to_positions key with
    | Option.none => setA f.key_to_positions key [position]
    | Option.some l => setA f.key_to_positions key (l ++ [position])
  Except.ok ({ f with
    position_to_entry := p2e
    key_to_positions := k2p
    next_position := f.next_position + 1 }, position)

/-- `PositionalFIFO.find_all_positions`: all positions with this key (a copy of
the reverse-index list; empty when absent). -/
def PositionalFIFO.find_all_positions [DecidableEq H]
    (f : PositionalFIFO H) (key : H) : List Nat :=
  (getA f.key_to_positions key).getD []

/-- `PositionalFIFO.get_key`: window hash at a position, `none` if evicted. -/
def PositionalFIFO.get_key [DecidableEq H] (f : PositionalFIFO H) (position : Nat) :
    Option H :=
  (getA f.position_to_entry position).map (·.window_hash)

/-- `PositionalFIFO.get_entry`: history entry at a position. -/
def PositionalFIFO.get_entry [DecidableEq H] (f : PositionalFIFO H) (position : Nat) :
    Option (HistoryEntry H) :=
  getA f.position_to_entry position

/-! ### Record and window hashing (uniqseq.py, lines 124-158) -/

/-- `hash_line` (uniqseq.py, lines 124-143).  The Blake2b 8-byte digest applied
to the (utf-8 encoded) content is the external `hashlib` call, abstracted as
the parameter `blake2b`; the embedding keeps the source's prefix-skip logic:
`content = line[skip_chars:] if skip_chars > 0 else line`.  Records are a list
of characters or bytes, so Python slicing is `List.drop`. -/
def hash_line {α D : Type} (blake2b : List α → D) (line : List α)
    (skip_chars : Nat := 0) : D :=
  blake2b (if skip_chars > 0 then line.drop skip_chars else line)

/-- `hash_window` (uniqseq.py, lines 146-158): digest of
`str(sequence_length) ++ ":" ++ "".join(window_hashes)`, with the 16-byte
Blake2b digest abstracted as the parameter `blake2b16`. -/
def hash_window {D : Type} (blake2b16 : String → D) (sequence_length : Nat)
    (window_hashes : List String) : D :=
  blake2b16 (toString sequence_length ++ ":" ++ String.join window_hashes)

/-! ### Filters (filtering.py and `UniqSeq._evaluate_filter`) -/

/-- Filter actions attached to patterns ("track" / "bypass") plus the
synthetic "no_match_allowlist" result of filter evaluation. -/
inductive FAction where
  | track
  | bypass
  | noMatchAllowlist
deriving DecidableEq, Repr

/-- A filter pattern (`FilterPattern`): the compiled regex is external, so the
pattern carries an abstract `search` predicate (`regex.search` as a Boolean
function of the record). -/
structure FilterPattern (Rec : Type) where
  pattern : String
  action : FAction
  search : Rec → Bool

/-- `evaluate_filter` (filtering.py, lines 21-60; identical to
`UniqSeq._evaluate_filter`): first matching pattern wins; with no match,
allow-list mode applies when any track pattern exists. -/
def evaluate_filter {Rec : Type} (line : Rec) (filter_patterns : List (FilterPattern Rec)) :
    Option FAction × Option String :=
  if filter_patterns.isEmpty then (Option.none, Option.none)
  else
    match filter_patterns.find? (fun p => p.search line) with
    | Option.some p => (Option.some p.action, Option.some p.pattern)
    | Option.none =>
      if filter_patterns.any (fun p => decide (p.action = FAction.track)) then
        (Option.some FAction.noMatchAllowlist, Option.none)
      else (Option.none, Option.none)

/-- The tracking decision of `process_line` (uniqseq.py, line 506):
`should_deduplicate = filter_action in ("track", None)`. -/
def should_deduplicate (action : Option FAction) : Bool :=
  match action with
  | Option.none => true
  | Option.some FAction.track => true
  | Option.some _ => false

/-! ### The UniqSeq engine (uniqseq.py, class `UniqSeq`)

The embedding is parametric in the record type `Rec` (the source handles
`str` and `bytes` records uniformly) and in a fingerprint type `H`.
`Config.lineFp` stands for the composite
`hash_line(hash_transform(line), skip_chars)` used by `process_line`, and
`Config.hashWindow n hs` for `hash_window(n, hs)`; the engine only ever uses
fingerprints as equality keys, exactly as in the source.  The two transitional
dictionaries `new_sequence_candidates` and `potential_uniq_matches` are never
populated by the live code (their insertion sites are commented out in the
source), so they are omitted from the state; every place the source consults
them is modelled as consulting an empty dict, with a comment at the site. -/

/-- Construction parameters of `UniqSeq.__init__` that affect the run. -/
structure Config (Rec H : Type) where
  window_size : Nat
  max_history : Option Nat
  max_candidates : Option Nat
  lineFp : Rec → H
  hashWindow : Nat → List H → H
  filter_patterns : List (FilterPattern Rec)
  inverse : Bool
  annotate : Bool

/-- A line in the deduplication buffer (uniqseq.py, `BufferedLine`). -/
structure BufferedLine (Rec H : Type) where
  line : Rec
  line_hash : H
  input_line_num : Nat
  tracked_line_num : Nat
deriving DecidableEq, Repr

/-- A recorded sequence in the library (uniqseq.py `SequenceRecord`; the class
layout follows the constructor call sites at uniqseq.py lines 426-432 and
841-847, see the module comment). -/
structure SequenceRecord (H : Type) where
  first_window_hash : H
  full_sequence_hash : H
  first_output_line : FOL
  sequence_length : Nat
  window_hashes : List H
  subsequence_match_counts : List (Nat × Nat)
deriving DecidableEq, Repr

/-- An active match against a recorded sequence (the `RecordedSequence`
candidates built at uniqseq.py lines 1414-1423).  `subsequence_match_counts`
is aliased with the library record in the source, so the candidate here keeps
only the two keys needed to reach that record. -/
structure RecCand (H : Type) where
  first_window_hash : H
  full_sequence_hash : H
  sequence_length : Nat
  window_hashes : List H
  first_output_line : FOL
  output_cursor_at_start : Nat
  next_window_index : Nat
deriving DecidableEq, Repr

/-- An active match against history (the `HistorySequence` candidates built at
uniqseq.py lines 1580-1591). -/
structure HistCand (H : Type) where
  first_window_hash : H
  length : Nat
  window_hashes : List H
  first_output_line : FOL
  output_cursor_at_start : Nat
  first_tracked_line : Nat
  buffer_depth : Nat
  matching_history_positions : List Nat
  original_first_history_position : Nat
deriving DecidableEq, Repr

/-- An entry of the unified `sequence_candidates` dict. -/
inductive Candidate (H : Type) where
  | recorded (r : RecCand H)
  | history (h : HistCand H)
deriving DecidableEq, Repr

/-- Keys of the `sequence_candidates` dict: the Python string ids
`f"uniq_{line_num_output}_{first_output_line}"` and
`f"new_{line_num_input}"`, kept as structured data. -/
inductive CandId where
  | uniq (output_line : Nat) (fol : FOL)
  | newC (input_line : Nat)
deriving DecidableEq, Repr

/-- An output record with its provenance: a tracked record emitted from the
deduplication buffer, or a bypassed record from the filtered buffer.
Annotation markers are written by a separate method (`_write_annotation`) and
are collected separately in the state. -/
inductive OutItem (Rec : Type) where
  | trk (input_line_num : Nat) (line : Rec)
  | byp (input_line_num : Nat) (line : Rec)
deriving DecidableEq, Repr

/-- The data of one annotation marker:
(start, end, match_start, match_end, count). -/
abbrev Annot := Nat × Nat × Int × Int × Nat

/-- The mutable state of a `UniqSeq` instance. -/
structure EngineState (Rec H : Type) where
  window_hash_history : PositionalFIFO H
  sequence_records : List (H × List (H × SequenceRecord H))
  sequence_candidates : List (CandId × Candidate H)
  line_buffer : List (BufferedLine Rec H)
  filtered_lines : List (Nat × Rec)
  line_num_input : Nat
  line_num_input_tracked : Nat
  line_num_output : Nat
  lines_skipped : Nat
  output : List (OutItem Rec)
  annots : List Annot
deriving DecidableEq, Repr

/-- The state of a freshly constructed engine with no preloaded sequences. -/
def initState (Rec : Type) {H : Type} (cfg : Config Rec H) : EngineState Rec H :=
  { window_hash_history := PositionalFIFO.init H cfg.max_history
    sequence_records := []
    sequence_candidates := []
    line_buffer := []
    filtered_lines := []
    line_num_input := 0
    line_num_input_tracked := 0
    line_num_output := 0
    lines_skipped := 0
    output := []
    annots := [] }

section Engine

variable {Rec H : Type} [DecidableEq H]

/-- The window fingerprints computed for one preloaded raw sequence
(uniqseq.py, lines 410-417): every window-size window of the line hashes of
the split sequence, in order. -/
def preload_window_hashes (cfg : Config String H) (lineFpPreload : String → H)
    (delimiter : String) (raw : String) : List H :=
  let lines_without_delim := pySplit raw delimiter
  let line_hashes := lines_without_delim.map lineFpPreload
  (List.range (lines_without_delim.length - cfg.window_size + 1)).map
    (fun i => cfg.hashWindow cfg.window_size
      ((line_hashes.drop i).take cfg.window_size))

/-- `_initialize_preloaded_sequences` (uniqseq.py, lines 388-438), for text
records: split each raw sequence by the delimiter, silently discard it when
shorter than the window, otherwise register a `SequenceRecord` whose
`first_output_line` is the preloaded sentinel and whose `window_hashes` are
all window-size windows of the line hashes.  `lineFpPreload` is the plain
`hash_line(line)` used here by the source (no transform, no prefix skip). -/
def initialize_preloaded_sequences (cfg : Config String H)
    (lineFpPreload : String → H) (delimiter : String)
    (preloaded : List (H × String)) (st : EngineState String H) :
    EngineState String H :=
  preloaded.foldl (fun st p =>
    let lines_without_delim := pySplit p.2 delimiter
    let sequence_length := lines_without_delim.length
    if sequence_length < cfg.window_size then st
    else
      let window_hashes := preload_window_hashes cfg lineFpPreload delimiter p.2
      match window_hashes with
      | [] => st   -- unreachable: `sequence_length ≥ window_size` gives a window
      | first_window_hash :: _ =>
        let seq_rec : SequenceRecord H :=
          { first_window_hash := first_window_hash
            full_sequence_hash := p.1
            first_output_line := FOL.ninf
            sequence_length := sequence_length
            window_hashes := window_hashes
            subsequence_match_counts := [] }
        let inner := (getA st.sequence_records first_window_hash).getD []
        { st with
            sequence_records :=
              setA st.sequence_records first_window_hash (setA inner p.1 seq_rec) })
    st

/-- Increment a library record's `subsequence_match_counts` at a matched
length (the aliased-dict mutation of the source, reached here through the
record's two keys; the record is never evicted by the live code). -/
def bump_count (records : List (H × List (H × SequenceRecord H)))
    (fwh fsh : H) (n : Nat) : List (H × List (H × SequenceRecord H)) :=
  modifyA records fwh (fun inner =>
    modifyA inner fsh (fun r =>
      { r with
          subsequence_match_counts :=
            setA r.subsequence_match_counts n
              ((getA r.subsequence_match_counts n).getD 0 + 1) }))

/-- Total duplicate count of a record: `sum(subsequence_match_counts.values())`. -/
def counts_total (counts : List (Nat × Nat)) : Nat :=
  (counts.map (·.2)).sum

/-- `_record_sequence` (uniqseq.py, lines 822-866), without the save-callback
side effect: record a history candidate's sequence in the library, or bump its
count when the full-sequence hash is already present. -/
def record_sequence (cfg : Config Rec H) (candidate : HistCand H)
    (st : EngineState Rec H) : EngineState Rec H :=
  let full_sequence_hash := cfg.hashWindow candidate.length candidate.window_hashes
  let inner := (getA st.sequence_records candidate.first_window_hash).getD []
  match getA inner full_sequence_hash with
  | Option.none =>
    let seq_rec : SequenceRecord H :=
      { first_window_hash := candidate.first_window_hash
        full_sequence_hash := full_sequence_hash
        first_output_line :=
          FOL.int ((candidate.output_cursor_at_start : Int) - (candidate.length : Int))
        sequence_length := candidate.length
        window_hashes := candidate.window_hashes
        subsequence_match_counts := [(candidate.length, 1)] }
    { st with
        sequence_records :=
          setA st.sequence_records candidate.first_window_hash
            (setA inner full_sequence_hash seq_rec) }
  | Option.some _ =>
    { st with
        sequence_records :=
          bump_count st.sequence_records candidate.first_window_hash
            full_sequence_hash candidate.length }

/-- Advance an active match by the current window hash (`advance_match`):
for a recorded-sequence match, compare against the next stored window hash
(divergence past the end of the sequence included); for a history match, keep
the history positions whose successor entry carries the current hash
(uniqseq.py, `_update_new_sequence_candidates`, lines 1104-1127).  Returns
`none` on divergence. -/
def Candidate.advance (history : PositionalFIFO H) (cwh : H) :
    Candidate H → Option (Candidate H)
  | .recorded r =>
    match r.window_hashes.get? r.next_window_index with
    | Option.some expected =>
      if expected = cwh then
        Option.some (.recorded { r with next_window_index := r.next_window_index + 1 })
      else Option.none
    | Option.none => Option.none
  | .history h =>
    let still_matching := h.matching_history_positions.filterMap (fun hist_pos =>
      match getA history.position_to_entry (hist_pos + 1) with
      | Option.some entry =>
        if entry.window_hash = cwh then Option.some (hist_pos + 1) else Option.none
      | Option.none => Option.none)
    if still_matching.isEmpty then Option.none
    else Option.some (.history { h with
        matching_history_positions := still_matching
        length := h.length + 1
        buffer_depth := h.buffer_depth + 1
        window_hashes := h.window_hashes ++ [cwh] })

/-- Matched length in lines of a diverged match (`get_matched_length`):
`window_size + next_window_index - 1` for recorded matches (as in
`PotentialSeqRecMatch.get_length`), the current `length` for history
matches. -/
def Candidate.matched_length (window_size : Nat) : Candidate H → Nat
  | .recorded r => window_size + r.next_window_index - 1
  | .history h => h.length

/-- The `first_output_line` of a candidate's underlying known sequence. -/
def Candidate.fol : Candidate H → FOL
  | .recorded r => r.first_output_line
  | .history h => h.first_output_line

/-- `_update_sequence_candidates` (uniqseq.py, lines 886-905): advance every
candidate, deleting diverged ones and collecting them with their matched
lengths. -/
def update_sequence_candidates (cfg : Config Rec H) (st : EngineState Rec H)
    (cwh : H) : EngineState Rec H × List (Candidate H × Nat) :=
  let step := st.sequence_candidates.foldl
    (fun (acc : List (CandId × Candidate H) × List (Candidate H × Nat)) idc =>
      match Candidate.advance st.window_hash_history cwh idc.2 with
      | Option.some c => (acc.1 ++ [(idc.1, c)], acc.2)
      | Option.none =>
        (acc.1, acc.2 ++ [(idc.2, Candidate.matched_length cfg.window_size idc.2)]))
    ([], [])
  ({ st with sequence_candidates := step.1 }, step.2)

/-- `finalize_match`: a diverged recorded-sequence match bumps the library
record's count at the matched length; a diverged history match is promoted
into the library through `_record_sequence`. -/
def finalize_match (cfg : Config Rec H) (c : Candidate H) (length : Nat)
    (st : EngineState Rec H) : EngineState Rec H :=
  match c with
  | .recorded r =>
    { st with
        sequence_records :=
          bump_count st.sequence_records r.first_window_hash r.full_sequence_hash length }
  | .history h => record_sequence cfg h st

/-- Total duplicate count reported for a match's annotations: for a recorded
match the aliased library counts (after the bump), for a history match the
candidate's own (empty) counts dict. -/
def candidate_counts_total (st : EngineState Rec H) : Candidate H → Nat
  | .recorded r =>
    match getA ((getA st.sequence_records r.first_window_hash).getD []) r.full_sequence_hash with
    | Option.some seq => counts_total seq.subsequence_match_counts
    | Option.none => 0
  | .history _ => counts_total ([] : List (Nat × Nat))

/-- One iteration of the line-consuming loop of `_handle_subsequence_matches`
(uniqseq.py, lines 1060-1082): pop the front buffered line, skipping it in
normal mode and emitting it in inverse mode when the matched sequence is not
preloaded (`fol` is the matched sequence's `first_output_line`). -/
def handle_pop_step (cfg : Config Rec H) (fol : FOL) (st : EngineState Rec H) :
    EngineState Rec H :=
  match st.line_buffer with
  | [] => st
  | bl :: rest =>
    let st := { st with line_buffer := rest }
    if cfg.inverse then
      if fol ≠ FOL.ninf then
        { st with output := st.output ++ [OutItem.trk bl.input_line_num bl.line]
                  line_num_output := st.line_num_output + 1 }
      else { st with lines_skipped := st.lines_skipped + 1 }
    else { st with lines_skipped := st.lines_skipped + 1 }

/-- Selection of the match to finalize among the diverged candidates
(uniqseq.py, lines 951-975): the first longest one, ties broken by earliest
`first_output_line` (Python `min`, which raises `TypeError` on a `None`
key when several longest matches exist). -/
def handle_select (diverged : List (Candidate H × Nat)) :
    Except PyError (Candidate H × Nat) := do
  let longest ← pyMaxBy diverged (·.2)
  let longest_length := longest.2
  let longest_diverged := diverged.filter (fun m => decide (m.2 = longest_length))
  let longest_seq ←
    if longest_diverged.length > 1 then do
      let m ← pyMinByFOL longest_diverged (fun m => Candidate.fol m.1)
      Except.ok m.1
    else
      match longest_diverged with
      | [] => Except.error PyError.indexError
      | m :: _ => Except.ok m.1
  Except.ok (longest_seq, longest_length)

/-- The annotation data computed for a finalized match of candidate `C` and
matched length `L` (uniqseq.py, lines 1019-1047); `none` when annotations are
off or in inverse mode. -/
def handle_annot (cfg : Config Rec H) (C : Candidate H) (L : Nat)
    (st : EngineState Rec H) : Except PyError (Option Annot) := do
  if cfg.annotate && !cfg.inverse && L > 0 then do
    let dup_start ←
      match st.line_buffer.head? with
      | Option.some b => Except.ok b.input_line_num
      | Option.none => Except.error PyError.indexError
    let dup_end ←
      match st.line_buffer.get? (min (L - 1) (st.line_buffer.length - 1)) with
      | Option.some b => Except.ok b.input_line_num
      | Option.none => Except.error PyError.indexError
    let match_start ← FOL.toInt (Candidate.fol C)
    let total := candidate_counts_total st C
    Except.ok (Option.some
      ((dup_start, dup_end, match_start, match_start + L - 1, total) : Annot))
  else Except.ok Option.none

/-- `_handle_subsequence_matches` (uniqseq.py, lines 943-1089): pick the first
longest diverged match (via `handle_select`), record it, compute the
annotation (via `handle_annot`, on the state after recording), then consume
`longest_length` lines from the front of the buffer (skipping them in normal
mode, emitting them in inverse mode unless the match is against a preloaded
sequence).  The has-longer-match checks of the source (lines 982-1017)
iterate the two always-empty transitional dicts, so they never fire. -/
def handle_subsequence_matches (cfg : Config Rec H)
    (diverged : List (Candidate H × Nat)) (st : EngineState Rec H) :
    Except PyError (EngineState Rec H) := do
  if diverged.isEmpty then Except.ok st
  else do
    let sel ← handle_select diverged
    let annotInfo ← handle_annot cfg sel.1 sel.2 (finalize_match cfg sel.1 sel.2 st)
    let stF := (List.range sel.2).foldl (fun st _ =>
      handle_pop_step cfg (Candidate.fol sel.1) st) (finalize_match cfg sel.1 sel.2 st)
    -- the final `new_sequence_candidates.clear()` / `potential_uniq_matches.clear()`
    -- act on the always-empty transitional dicts; `sequence_candidates` is NOT
    -- cleared here (diverged entries were already deleted during the update).
    match annotInfo with
    | Option.some a => Except.ok { stF with annots := stF.annots ++ [a] }
    | Option.none => Except.ok stF


/-- One iteration of the end-of-buffer consuming loop of the
immediately-confirmed-duplicate branch (uniqseq.py, lines 1484-1496): pop the
last buffered line, counting it as skipped in normal mode. -/
def confirmed_pop_step (cfg : Config Rec H) (st : EngineState Rec H) :
    EngineState Rec H :=
  match st.line_buffer.length with
  | 0 => st
  | _ + 1 =>
    let st := { st with line_buffer := st.line_buffer.take (st.line_buffer.length - 1) }
    if cfg.inverse then st
    else { st with lines_skipped := st.lines_skipped + 1 }

/-- The annotation data computed for an immediately confirmed duplicate of
the single-window sequence `seq` (uniqseq.py, lines 1446-1474); `none` unless
annotating a non-preloaded sequence in normal mode. -/
def confirmed_annot (cfg : Config Rec H) (seq : SequenceRecord H)
    (lines_to_skip total_dup_count : Nat) (st : EngineState Rec H) :
    Except PyError (Option Annot) := do
  if cfg.annotate && !cfg.inverse && lines_to_skip > 0 &&
      decide (seq.first_output_line ≠ FOL.ninf) then do
    let dup_start ← (pyNegIdx st.line_buffer lines_to_skip).map (·.input_line_num)
    let dup_end ← (pyNegIdx st.line_buffer 1).map (·.input_line_num)
    let match_start ← FOL.toInt seq.first_output_line
    Except.ok (Option.some
      ((dup_start, dup_end, match_start,
        match_start + lines_to_skip - 1, total_dup_count) : Annot))
  else Except.ok Option.none

/-- `_check_for_new_uniq_matches` (uniqseq.py, lines 1383-1594).  Phase 3a
scans the known sequences keyed by the current window hash, starting a
recorded-sequence candidate for each multi-window sequence and breaking with
an immediately confirmed duplicate on a single-window sequence; the confirmed
branch consumes the current window from the end of the buffer and makes
`process_line` return early (the Boolean result).  Phase 3b starts a history
candidate from the non-overlapping history positions of the current hash. -/
def check_for_new_uniq_matches (cfg : Config Rec H) (st : EngineState Rec H)
    (cwh : H) : Except PyError (EngineState Rec H × Bool) := do
  let inner := (getA st.sequence_records cwh).getD []
  let scan := inner.foldl
    (fun (acc : List (CandId × Candidate H) × Option (SequenceRecord H)) p =>
      match acc.2 with
      | Option.some _ => acc
      | Option.none =>
        let seq := p.2
        if 1 ≥ seq.window_hashes.length then (acc.1, Option.some seq)
        else
          let match_id := CandId.uniq st.line_num_output seq.first_output_line
          let candidate : Candidate H := .recorded
            { first_window_hash := seq.first_window_hash
              full_sequence_hash := seq.full_sequence_hash
              sequence_length := seq.sequence_length
              window_hashes := seq.window_hashes
              first_output_line := seq.first_output_line
              output_cursor_at_start := st.line_num_output
              next_window_index := 1 }
          (setA acc.1 match_id candidate, Option.none))
    (st.sequence_candidates, Option.none)
  let st := { st with sequence_candidates := scan.1 }
  match scan.2 with
  | Option.some seq =>
    -- immediately confirmed duplicate (uniqseq.py, lines 1434-1516)
    let match_length := cfg.window_size + 1 - 1
    let new_counts :=
      setA seq.subsequence_match_counts match_length
        ((getA seq.subsequence_match_counts match_length).getD 0 + 1)
    let total_dup_count := counts_total new_counts
    let st := { st with
        sequence_records :=
          setA st.sequence_records cwh
            (setA ((getA st.sequence_records cwh).getD []) seq.full_sequence_hash
              { seq with subsequence_match_counts := new_counts }) }
    let lines_to_skip := match_length
    let annotInfo ← confirmed_annot cfg seq lines_to_skip total_dup_count st
    let lines_to_emit :=
      if cfg.inverse && lines_to_skip > 0 then
        st.line_buffer.drop (st.line_buffer.length - lines_to_skip)
      else []
    let st := (List.range lines_to_skip).foldl (fun st _ =>
      confirmed_pop_step cfg st) st
    let st :=
      if cfg.inverse && lines_to_skip > 0 then
        if seq.first_output_line ≠ FOL.ninf then
          lines_to_emit.foldl (fun st bl =>
            { st with
                output := st.output ++ [OutItem.trk bl.input_line_num bl.line]
                line_num_output := st.line_num_output + 1 }) st
        else { st with lines_skipped := st.lines_skipped + lines_to_skip }
      else st
    let st :=
      match annotInfo with
      | Option.some a => { st with annots := st.annots ++ [a] }
      | Option.none => st
    -- the clears act on the always-empty transitional dicts only
    Except.ok (st, true)
  | Option.none =>
    -- Phase 3b (uniqseq.py, lines 1518-1594)
    let history_positions := st.window_hash_history.find_all_positions cwh
    if history_positions.isEmpty then Except.ok (st, false)
    else
      let current_window_start := st.line_num_input_tracked - cfg.window_size + 1
      let non_overlapping := history_positions.filter
        (fun pos => pos + cfg.window_size ≤ current_window_start)
      if non_overlapping.isEmpty then Except.ok (st, false)
      else do
        -- the `candidate_id not in new_sequence_candidates` guard checks the
        -- always-empty transitional dict and therefore always passes
        let candidate_id := CandId.newC st.line_num_input
        let tracked_start := st.line_num_input_tracked - cfg.window_size
        -- the capacity check `len(new_sequence_candidates) >= max_candidates`
        -- also reads the empty transitional dict (`0 >= max_candidates`);
        -- when it fires, `max` over that empty dict raises ValueError
        match cfg.max_candidates with
        | Option.some mc =>
          if mc = 0 then Except.error PyError.valueError
          else check_new_match_create cfg st cwh candidate_id tracked_start non_overlapping
        | Option.none =>
          check_new_match_create cfg st cwh candidate_id tracked_start non_overlapping
where
  /-- Creation of the history candidate (uniqseq.py, lines 1573-1594). -/
  check_new_match_create (cfg : Config Rec H) (st : EngineState Rec H) (cwh : H)
      (candidate_id : CandId) (tracked_start : Nat) (non_overlapping : List Nat) :
      Except PyError (EngineState Rec H × Bool) := do
    let first_history_pos ← pyMinNat non_overlapping
    let entry ←
      match getA st.window_hash_history.position_to_entry first_history_pos with
      | Option.some e => Except.ok e
      | Option.none => Except.error PyError.keyError
    let hist_seq : HistCand H :=
      { first_window_hash := cwh
        length := cfg.window_size
        window_hashes := [cwh]
        first_output_line := FOL.ofOpt entry.first_output_line
        output_cursor_at_start := st.line_num_output
        first_tracked_line := tracked_start
        buffer_depth := st.line_buffer.length - 1
        matching_history_positions := non_overlapping
        original_first_history_position := first_history_pos }
    Except.ok ({ st with
        sequence_candidates :=
          setA st.sequence_candidates candidate_id (.history hist_seq) }, false)

/-- One iteration test of `_emit_merged_lines` (uniqseq.py, lines 629-684):
compare optional line numbers with `none` playing Python's `float("inf")`. -/
def leNumInf (d : Nat) (f : Option Nat) : Bool :=
  match f with
  | Option.none => true
  | Option.some n => decide (d ≤ n)

/-- The loop test `dedup_can_emit and dedup_line_num <= filtered_line_num` of
`_emit_merged_lines` (uniqseq.py, lines 629-646), with `None` line numbers
playing Python's `float("inf")`. -/
def emit_take_dedup (cfg : Config Rec H) (st : EngineState Rec H) : Bool :=
  let min_required_depth := cfg.window_size
  let dedupNum : Option Nat :=
    if st.line_buffer.length > min_required_depth then
      st.line_buffer.head?.map (·.input_line_num)
    else Option.none
  match dedupNum with
  | Option.some d => leNumInf d (st.filtered_lines.head?.map (·.1))
  | Option.none => false

/-- The loop test `filtered_can_emit and filtered_line_num < dedup_line_num`
of `_emit_merged_lines`, which given the first branch failed reduces to
comparing against the buffer head. -/
def emit_filtered_can (st : EngineState Rec H) : Bool :=
  match st.filtered_lines.head?, st.line_buffer.head? with
  | Option.some f, Option.some b => decide (f.1 < b.input_line_num)
  | Option.some _, Option.none => true
  | Option.none, _ => false

/-- The per-record effect of emitting the popped buffer head `bl` from the
deduplication buffer (uniqseq.py, lines 648-668): skip in inverse mode,
otherwise emit it and back-fill the history entry's first output line. -/
def emit_dedup_pop (cfg : Config Rec H) (bl : BufferedLine Rec H)
    (st : EngineState Rec H) : EngineState Rec H :=
  if cfg.inverse then { st with lines_skipped := st.lines_skipped + 1 }
  else
    let st := { st with
        output := st.output ++ [OutItem.trk bl.input_line_num bl.line]
        line_num_output := st.line_num_output + 1 }
    let hist_pos := bl.tracked_line_num - 1
    match getA st.window_hash_history.position_to_entry hist_pos with
    | Option.some e =>
      if e.first_output_line = Option.none then
        { st with
            window_hash_history := { st.window_hash_history with
              position_to_entry :=
                modifyA st.window_hash_history.position_to_entry hist_pos
                  (fun e => { e with
                    first_output_line := Option.some st.line_num_output }) } }
      else st
    | Option.none => st

/-- The emission loop of `_emit_merged_lines`, with explicit fuel (each
iteration pops one record, so `|line_buffer| + |filtered_lines|` steps
suffice; when the fuel runs out both buffers are empty and the loop would
stop anyway). -/
def emit_loop (cfg : Config Rec H) : Nat → EngineState Rec H → EngineState Rec H
  | 0, st => st
  | fuel + 1, st =>
    if emit_take_dedup cfg st then
      -- emit from the deduplication buffer
      match st.line_buffer with
      | [] => st   -- unreachable: `emit_take_dedup` requires a nonempty buffer
      | bl :: rest =>
        emit_loop cfg fuel (emit_dedup_pop cfg bl { st with line_buffer := rest })
    else if emit_filtered_can st then
      -- emit from the filtered buffer
      match st.filtered_lines with
      | [] => st   -- unreachable: `emit_filtered_can` requires a head
      | (idx, line) :: rest =>
        emit_loop cfg fuel { st with
          filtered_lines := rest
          output := st.output ++ [OutItem.byp idx line]
          line_num_output := st.line_num_output + 1 }
    else st

/-- `_emit_merged_lines` (uniqseq.py, lines 601-684). -/
def emit_merged_lines (cfg : Config Rec H) (st : EngineState Rec H) :
    EngineState Rec H :=
  emit_loop cfg (st.line_buffer.length + st.filtered_lines.length) st

/-- `process_line` (uniqseq.py, lines 487-599): filter evaluation, buffering,
then the five-phase pipeline once a full window is available.  On a Python
exception the call reports the error (the caller keeps the pre-call state). -/
def process_line (cfg : Config Rec H) (st : EngineState Rec H) (line : Rec) :
    Except PyError (EngineState Rec H) := do
  let st := { st with line_num_input := st.line_num_input + 1 }
  let filter_action := (evaluate_filter line cfg.filter_patterns).1
  if !(should_deduplicate filter_action) then
    let st := { st with
        filtered_lines := st.filtered_lines ++ [(st.line_num_input, line)] }
    Except.ok (emit_merged_lines cfg st)
  else
    let line_hash := cfg.lineFp line
    let st := { st with line_num_input_tracked := st.line_num_input_tracked + 1 }
    let buffered_line : BufferedLine Rec H :=
      { line := line
        line_hash := line_hash
        input_line_num := st.line_num_input
        tracked_line_num := st.line_num_input_tracked }
    let st := { st with line_buffer := st.line_buffer ++ [buffered_line] }
    if st.line_buffer.length < cfg.window_size then Except.ok st
    else do
      let window_line_hashes :=
        (st.line_buffer.map (·.line_hash)).drop
          (st.line_buffer.length - cfg.window_size)
      let current_window_hash := cfg.hashWindow cfg.window_size window_line_hashes
      -- Phase 1: advance active matches, collecting divergences.  The
      -- source's `if diverged_matches:` guard is subsumed by the identical
      -- empty-list guard at the top of `handle_subsequence_matches`.
      let upd := update_sequence_candidates cfg st current_window_hash
      let st ← handle_subsequence_matches cfg upd.2 upd.1
      -- Phase 2 `_check_for_finalization` iterates the always-empty
      -- transitional dict: no effect.
      -- Phase 3: start new matches (early return on a confirmed duplicate)
      let r ← check_for_new_uniq_matches cfg st current_window_hash
      if r.2 then Except.ok r.1
      else do
        -- Phase 4: append to history
        let ap ← r.1.window_hash_history.append current_window_hash
        let st := { r.1 with window_hash_history := ap.1 }
        -- Phase 5: emit
        Except.ok (emit_merged_lines cfg st)

/-- The drain loop test of `flush`: the buffer head exists and its line
number is at most the filtered head's (uniqseq.py, lines 800-806). -/
def drain_take_dedup (st : EngineState Rec H) : Bool :=
  match st.line_buffer.head?.map (·.input_line_num) with
  | Option.some d => leNumInf d (st.filtered_lines.head?.map (·.1))
  | Option.none => false

/-- The drain loop at the end of `flush` (uniqseq.py, lines 798-820), with
explicit fuel (one record leaves per iteration). -/
def flush_drain (cfg : Config Rec H) : Nat → EngineState Rec H → EngineState Rec H
  | 0, st => st
  | fuel + 1, st =>
    if st.line_buffer.isEmpty && st.filtered_lines.isEmpty then st
    else
      if drain_take_dedup st then
        match st.line_buffer with
        | [] => st   -- unreachable
        | bl :: rest =>
          let st := { st with line_buffer := rest }
          let st :=
            if cfg.inverse then { st with lines_skipped := st.lines_skipped + 1 }
            else { st with
                output := st.output ++ [OutItem.trk bl.input_line_num bl.line]
                line_num_output := st.line_num_output + 1 }
          flush_drain cfg fuel st
      else
        match st.filtered_lines with
        | [] => st   -- unreachable: some buffer is nonempty and it is not lb
        | (idx, line) :: rest =>
          flush_drain cfg fuel { st with
            filtered_lines := rest
            output := st.output ++ [OutItem.byp idx line]
            line_num_output := st.line_num_output + 1 }

/-- Resolution of one remaining history candidate during `flush` (uniqseq.py,
lines 703-797): when at least a full window was seen since the match started
and a complete duplicate was detectable, consume the candidate's trailing
lines from the end of the buffer (skipping them in normal mode, emitting them
in inverse mode) and record the sequence. -/
def flush_candidate_step (cfg : Config Rec H) (st : EngineState Rec H)
    (candidate : HistCand H) : Except PyError (EngineState Rec H) := do
  let lines_from_start_to_eof :=
    st.line_num_input_tracked - candidate.first_tracked_line
  if lines_from_start_to_eof ≥ cfg.window_size then
    let should_skip := candidate.matching_history_positions.any (fun hist_pos =>
      st.line_num_input_tracked - (hist_pos + cfg.window_size) ≥ cfg.window_size)
    if should_skip then
      let num_lines := min candidate.length st.line_buffer.length
      let annotData : Annot :=
        if num_lines > 0 && st.line_buffer.length ≥ num_lines then
          let dup_start :=
            (((st.line_buffer.drop (st.line_buffer.length - num_lines)).head?).map
              (·.input_line_num)).getD 0
          let dup_end := ((st.line_buffer.getLast?).map (·.input_line_num)).getD 0
          (dup_start, dup_end, (candidate.output_cursor_at_start : Int),
            (candidate.output_cursor_at_start : Int) + num_lines - 1, 2)
        else (0, 0, 0, 0, 2)
      let lines_to_emit :=
        if cfg.inverse && num_lines > 0 then
          st.line_buffer.drop (st.line_buffer.length - num_lines)
        else []
      let st := { st with
          line_buffer := st.line_buffer.take (st.line_buffer.length - num_lines)
          lines_skipped :=
            if cfg.inverse then st.lines_skipped else st.lines_skipped + num_lines }
      let st :=
        if cfg.inverse && num_lines > 0 then
          lines_to_emit.foldl (fun st bl =>
            { st with
                output := st.output ++ [OutItem.trk bl.input_line_num bl.line]
                line_num_output := st.line_num_output + 1 }) st
        else st
      let st :=
        if cfg.annotate && !cfg.inverse && num_lines > 0 then
          { st with annots := st.annots ++ [annotData] }
        else st
      Except.ok (record_sequence cfg candidate st)
    else Except.ok st
  else Except.ok st

/-- `flush` (uniqseq.py, lines 686-820): resolve the remaining history
candidates (skipping or, in inverse mode, emitting their trailing lines when
a complete duplicate was detectable), drop them from the candidate dict, then
drain both buffers in input order. -/
def flush (cfg : Config Rec H) (st : EngineState Rec H) :
    Except PyError (EngineState Rec H) := do
  let candidates_to_process := st.sequence_candidates.filterMap (fun p =>
    match p.2 with
    | .history h => Option.some h
    | .recorded _ => Option.none)
  let st ← candidates_to_process.foldlM (flush_candidate_step cfg) st
  let st := { st with
      sequence_candidates := st.sequence_candidates.filter (fun p =>
        match p.2 with
        | .history _ => false
        | .recorded _ => true) }
  Except.ok (flush_drain cfg (st.line_buffer.length + st.filtered_lines.length) st)

/-- Feed the records one at a time through `process_line`; a raised exception
stops processing, reporting the error together with the state before the
failing call. -/
def runAux (cfg : Config Rec H) :
    EngineState Rec H → List Rec → EngineState Rec H × Option PyError
  | st, [] => (st, Option.none)
  | st, r :: rest =>
    match process_line cfg st r with
    | .ok st₁ => runAux cfg st₁ rest
    | .error e => (st, Option.some e)

/-- A complete run: process every record, then `flush`. -/
def run (cfg : Config Rec H) (st₀ : EngineState Rec H) (input : List Rec) :
    EngineState Rec H × Option PyError :=
  match runAux cfg st₀ input with
  | (st, Option.some e) => (st, Option.some e)
  | (st, Option.none) =>
    match flush cfg st with
    | .ok st₁ => (st₁, Option.none)
    | .error e => (st, Option.some e)

/-- The statistics snapshot (`get_stats`, uniqseq.py lines 868-884). -/
structure Stats where
  total : Nat
  emitted : Nat
  skipped : Nat
  redundancy_pct : Rat
  unique_sequences : Nat
deriving DecidableEq, Repr

/-- `get_stats`. -/
def get_stats (st : EngineState Rec H) : Stats :=
  { total := st.line_num_input
    emitted := st.line_num_output
    skipped := st.lines_skipped
    redundancy_pct :=
      if st.line_num_input > 0 then
        (100 * (st.lines_skipped : Rat)) / (st.line_num_input : Rat)
      else 0
    unique_sequences := (st.sequence_records.map (fun p => p.2.length)).sum }

/-- The tracked records of an output stream, with their input line numbers. -/
def trackedOut (out : List (OutItem Rec)) : List (Nat × Rec) :=
  out.filterMap (fun o =>
    match o with
    | OutItem.trk i l => Option.some (i, l)
    | OutItem.byp _ _ => Option.none)

/-- The record contents of an output stream, in order (data records only;
annotation markers are collected separately in the state). -/
def outLines (out : List (OutItem Rec)) : List Rec :=
  out.map (fun o =>
    match o with
    | OutItem.trk _ l => l
    | OutItem.byp _ l => l)

/-- The tracked records of an input, tagged with their 1-based input line
numbers: those records the filter routes into the deduplication pipeline. -/
def trackedIn (cfg : Config Rec H) (input : List Rec) : List (Nat × Rec) :=
  (List.enumFrom 1 input).filterMap (fun p =>
    if should_deduplicate (evaluate_filter p.2 cfg.filter_patterns).1 then
      Option.some (p.1, p.2)
    else Option.none)

/-- `trackedIn` generalized to an arbitrary starting line number, for
reasoning about a run from an intermediate state. -/
def trackedInFrom (cfg : Config Rec H) (start : Nat) (input : List Rec) :
    List (Nat × Rec) :=
  (List.enumFrom start input).filterMap (fun p =>
    if should_deduplicate (evaluate_filter p.2 cfg.filter_patterns).1 then
      Option.some (p.1, p.2)
    else Option.none)

end Engine

/-! ### CLI argument validation (cli.py) -/

/-- `DEFAULT_MAX_HISTORY` (uniqseq.py, line 12 / cli.py). -/
def DEFAULT_MAX_HISTORY : Nat := 100000

/-- The CLI arguments consulted by `validate_arguments` (cli.py, lines
297-371) and by the filter/byte-mode check of `main` (cli.py, lines 795-802).
`has_filter_patterns` abbreviates "at least one track or bypass pattern was
given". -/
structure CliConfig where
  window_size : Nat
  max_history : Option Nat
  unlimited_history : Bool
  stats_format : String
  byte_mode : Bool
  delimiter : String
  delimiter_hex : Option String
  hash_transform : Option String
  annotate : Bool
  annot_format : Option String
  has_filter_patterns : Bool

/-- `validate_arguments` (cli.py, lines 297-371): the checks in source order,
each raising `typer.BadParameter` (a non-zero CLI exit). -/
def validate_arguments (c : CliConfig) : Except String Unit :=
  if c.unlimited_history ∧ c.max_history ≠ Option.some DEFAULT_MAX_HISTORY then
    Except.error "unlimited-history and max-history are mutually exclusive"
  else if c.max_history.isSome ∧ c.window_size > c.max_history.getD 0 then
    Except.error "window-size cannot exceed max-history"
  else if c.stats_format ≠ "table" ∧ c.stats_format ≠ "json" then
    Except.error "stats-format must be table or json"
  else if c.delimiter_hex.isSome ∧ c.delimiter ≠ "\n" then
    Except.error "delimiter and delimiter-hex are mutually exclusive"
  else if c.delimiter_hex.isSome ∧ ¬c.byte_mode then
    Except.error "delimiter-hex requires byte-mode"
  else if c.byte_mode ∧ c.delimiter ≠ "\n" then
    Except.error "delimiter is incompatible with byte-mode"
  else if c.annot_format.isSome ∧ ¬c.annotate then
    Except.error "annotation-format requires annotate"
  else Except.ok ()

/-- Argument validation as the host sees it: `validate_arguments` first, and
later in `main` (cli.py, lines 795-802, still before the engine is built) the
check that filter patterns are incompatible with binary mode, raising
`typer.Exit(1)`. -/
def cli_validates (c : CliConfig) : Except String Unit :=
  match validate_arguments c with
  | Except.error e => Except.error e
  | Except.ok () =>
    if c.has_filter_patterns ∧ c.byte_mode then
      Except.error "filter patterns require text mode"
    else Except.ok ()

/-! ### Concrete fingerprint instantiations

Used to build witnesses and counterexamples: a fingerprint type on which the
abstract line/window fingerprints are provably injective (binary trees over
naturals), and a string-based instantiation mirroring `hash_window`'s
concatenation for concrete evaluation runs. -/

/-- Pack a list of trees into one tree (right comb). -/
def treeOfList : List (Tree Nat) → Tree Nat
  | [] => Tree.nil
  | t :: rest => Tree.node 0 t (treeOfList rest)

/-- An injective stand-in for the 8-byte record digest over `Nat` records. -/
def lineFpT (r : Nat) : Tree Nat :=
  Tree.node r Tree.nil (Tree.node 1 Tree.nil Tree.nil)

/-- An injective stand-in for the 16-byte window digest. -/
def hashWindowT (n : Nat) (l : List (Tree Nat)) : Tree Nat :=
  Tree.node n (treeOfList l) Tree.nil

/-- A string-valued window fingerprint mirroring the concatenation inside
`hash_window`, for concrete evaluation runs. -/
def sWin (n : Nat) (l : List String) : String :=
  toString n ++ ":" ++ String.intercalate "," l

/-- A text-mode engine configuration with the default limits and the
string-valued fingerprints, for concrete evaluation runs. -/
def strConfig (window_size : Nat) (inverse : Bool) : Config String String :=
  { window_size := window_size
    max_history := Option.some DEFAULT_MAX_HISTORY
    max_candidates := Option.some 100
    lineFp := fun s => s
    hashWindow := sWin
    filter_patterns := []
    inverse := inverse
    annotate := false }

/-- A text-mode engine configuration over `Nat` records with the
tree-valued injective fingerprints, for witness instantiations. -/
def treeConfig (window_size : Nat) (inverse : Bool) : Config Nat (Tree Nat) :=
  { window_size := window_size
    max_history := Option.some DEFAULT_MAX_HISTORY
    max_candidates := Option.some 100
    lineFp := lineFpT
    hashWindow := hashWindowT
    filter_patterns := []
    inverse := inverse
    annotate := false }

/-- Well-formedness of a `PositionalFIFO`: the live positions are exactly the
contiguous block `[oldest_position, next_position)` in ascending order, the
reverse index has distinct keys and maps every present fingerprint to
exactly its nonempty, ascending list of live positions (absent fingerprints
have no live position). -/
def FIFO_WF {H : Type} [DecidableEq H] (f : PositionalFIFO H) : Prop :=
  f.next_position = f.oldest_position + f.position_to_entry.length ∧
  f.position_to_entry.map Prod.fst =
    List.range' f.oldest_position f.position_to_entry.length ∧
  (f.key_to_positions.map Prod.fst).Nodup ∧
  (∀ k ps, getA f.key_to_positions k = Option.some ps →
    ps ≠ [] ∧ List.Sorted (fun a b => a < b) ps ∧
    (∀ p, p ∈ ps ↔ ∃ e, getA f.position_to_entry p = Option.some e ∧ e.window_hash = k)) ∧
  (∀ k, getA f.key_to_positions k = Option.none →
    ∀ p e, getA f.position_to_entry p = Option.some e → e.window_hash ≠ k)

/-- The tracked records already emitted followed by those still pending in the
deduplication buffer, each with its input line number.  In normal mode every
state operation either keeps this list unchanged (emission moves the buffer
head into the output) or deletes elements from it (skipping), which is what
makes the emitted tracked records a subsequence of the tracked input. -/
def pending_tracked {Rec H : Type} (st : EngineState Rec H) : List (Nat × Rec) :=
  trackedOut st.output ++ st.line_buffer.map (fun b => (b.input_line_num, b.line))

/-! ### Concrete fixtures for counterexample and evaluation runs -/

/-- Inverse-mode run with the preloaded three-record sequence `X,Y,Z` on the
eight-record input `V,X,Y,Q,V,X,Y,Z` (window 3): the conservation fixture. -/
def c2Res : EngineState String String × Option PyError :=
  run (strConfig 3 true)
    (initialize_preloaded_sequences (strConfig 3 true) (fun s => s) "\n"
      [("PRE", "X\nY\nZ")] (initState String (strConfig 3 true)))
    ["V", "X", "Y", "Q", "V", "X", "Y", "Z"]

/-- The input of the inverse-mode ordering fixture. -/
def c3Input : List String :=
  ["Z", "M", "N", "A", "B", "C", "D", "E", "A", "B", "C", "Z", "A", "B", "C", "M", "N", "T"]

/-- Inverse-mode run (window 3, no preloads) on `c3Input`. -/
def c3Res : EngineState String String × Option PyError :=
  run (strConfig 3 true) (initState String (strConfig 3 true)) c3Input

/-- The input of the inverse-complementarity fixture. -/
def c4Input : List String :=
  ["A", "B", "C", "D", "P", "Q", "A", "B", "C", "D", "R", "A", "B", "C", "D", "X"]

/-- Normal-mode run (window 3, no preloads) on `c4Input`. -/
def c4ResN : EngineState String String × Option PyError :=
  run (strConfig 3 false) (initState String (strConfig 3 false)) c4Input

/-- Inverse-mode run (window 3, no preloads) on `c4Input`. -/
def c4ResI : EngineState String String × Option PyError :=
  run (strConfig 3 true) (initState String (strConfig 3 true)) c4Input

/-- A CLI configuration violating none of the conditions listed in the spec's
fatal-configuration list: defaults everywhere except a custom annotation
format given without enabling annotations. -/
def c9Cfg : CliConfig :=
  { window_size := 10
    max_history := Option.some DEFAULT_MAX_HISTORY
    unlimited_history := false
    stats_format := "table"
    byte_mode := false
    delimiter := "\n"
    delimiter_hex := Option.none
    hash_transform := Option.none
    annotate := false
    annot_format := Option.some "SKIP"
    has_filter_patterns := false }

/-! ## Theorems -/

section AlistLemmas

variable {K V : Type} [DecidableEq K]

theorem getA_cons (k₀ : K) (v₀ : V) (l : List (K × V)) (k : K) :
    getA ((k₀, v₀) :: l) k = if k₀ = k then Option.some v₀ else getA l k := by
  by_cases h : k₀ = k <;> simp [getA, List.find?_cons, h]

theorem getA_setA_self (l : List (K × V)) (k : K) (v : V) :
    getA (setA l k v) k = Option.some v := by
  induction l with
  | nil => simp [setA, getA_cons]
  | cons p rest ih =>
    obtain ⟨k₀, v₀⟩ := p
    by_cases h : k₀ = k <;> simp [setA, h, getA_cons, ih]

theorem getA_setA_ne (l : List (K × V)) {k k' : K} (v : V) (h : k' ≠ k) :
    getA (setA l k v) k' = getA l k' := by
  induction l with
  | nil => simp [setA, getA_cons, getA, Ne.symm h]
  | cons p rest ih =>
    obtain ⟨k₀, v₀⟩ := p
    by_cases hk : k₀ = k
    · subst hk
      simp [setA, getA_cons, Ne.symm h]
    · simp [setA, hk, getA_cons, ih]

theorem getA_isSome_iff_mem (l : List (K × V)) (k : K) :
    (getA l k).isSome = true ↔ k ∈ l.map Prod.fst := by
  induction l with
  | nil => simp [getA]
  | cons p rest ih =>
    obtain ⟨k₀, v₀⟩ := p
    rw [getA_cons]
    by_cases h : k₀ = k
    · subst h; simp
    · simp [h, Ne.symm h, ih]

theorem getA_eq_none_of_not_mem {l : List (K × V)} {k : K}
    (h : k ∉ l.map Prod.fst) : getA l k = Option.none := by
  have := (getA_isSome_iff_mem l k).not.mpr h
  cases hg : getA l k with
  | none => rfl
  | some v => exact absurd (by simp [hg]) this

theorem getA_mem {l : List (K × V)} {k : K} {v : V}
    (h : getA l k = Option.some v) : (k, v) ∈ l := by
  induction l with
  | nil => simp [getA] at h
  | cons p rest ih =>
    obtain ⟨k₀, v₀⟩ := p
    rw [getA_cons] at h
    by_cases hk : k₀ = k
    · simp [hk] at h
      subst hk h
      exact List.mem_cons_self ..
    · simp [hk] at h
      exact List.mem_cons_of_mem _ (ih h)

theorem setA_of_getA_none {l : List (K × V)} {k : K}
    (h : getA l k = Option.none) (v : V) : setA l k v = l ++ [(k, v)] := by
  induction l with
  | nil => simp [setA]
  | cons p rest ih =>
    obtain ⟨k₀, v₀⟩ := p
    rw [getA_cons] at h
    by_cases hk : k₀ = k
    · simp [hk] at h
    · simp [hk] at h
      simp [setA, hk, ih h]

theorem keys_setA_of_some {l : List (K × V)} {k : K} {v₀ : V}
    (h : getA l k = Option.some v₀) (v : V) :
    (setA l k v).map Prod.fst = l.map Prod.fst := by
  induction l with
  | nil => simp [getA] at h
  | cons p rest ih =>
    obtain ⟨k₀, v₁⟩ := p
    rw [getA_cons] at h
    by_cases hk : k₀ = k
    · simp [setA, hk]
    · simp [hk] at h
      simp [setA, hk, ih h]

theorem keys_delA (l : List (K × V)) (k : K) :
    (delA l k).map Prod.fst = (l.map Prod.fst).erase k := by
  induction l with
  | nil => simp [delA]
  | cons p rest ih =>
    obtain ⟨k₀, v₀⟩ := p
    by_cases hk : k₀ = k
    · subst hk; simp [delA]
    · simp [delA, hk, ih, List.erase_cons_tail, hk]

theorem getA_delA_ne (l : List (K × V)) {k k' : K} (h : k' ≠ k) :
    getA (delA l k) k' = getA l k' := by
  induction l with
  | nil => simp [delA]
  | cons p rest ih =>
    obtain ⟨k₀, v₀⟩ := p
    by_cases hk : k₀ = k
    · subst hk
      simp [delA, getA_cons, Ne.symm h]
    · simp [delA, hk, getA_cons, ih]

theorem getA_delA_self {l : List (K × V)} {k : K}
    (hnd : (l.map Prod.fst).Nodup) : getA (delA l k) k = Option.none := by
  induction l with
  | nil => simp [delA, getA]
  | cons p rest ih =>
    obtain ⟨k₀, v₀⟩ := p
    rw [List.map_cons, List.nodup_cons] at hnd
    by_cases hk : k₀ = k
    · subst hk
      simp only [delA, if_pos rfl]
      exact getA_eq_none_of_not_mem hnd.1
    · simp [delA, hk, getA_cons, ih hnd.2]

theorem getA_modifyA_self (l : List (K × V)) (k : K) (g : V → V) :
    getA (modifyA l k g) k = (getA l k).map g := by
  induction l with
  | nil => simp [modifyA, getA]
  | cons p rest ih =>
    obtain ⟨k₀, v₀⟩ := p
    by_cases hk : k₀ = k <;> simp [modifyA, hk, getA_cons, ih]

theorem getA_modifyA_ne (l : List (K × V)) {k k' : K} (g : V → V) (h : k' ≠ k) :
    getA (modifyA l k g) k' = getA l k' := by
  induction l with
  | nil => simp [modifyA]
  | cons p rest ih =>
    obtain ⟨k₀, v₀⟩ := p
    by_cases hk : k₀ = k
    · subst hk
      simp [modifyA, getA_cons, Ne.symm h]
    · simp [modifyA, hk, getA_cons, ih]

end AlistLemmas

/-- C10: the record-fingerprint function is total: for every record (a list of
characters or bytes) and every `skip_chars`, `hash_line` returns the digest of
the suffix `record[skip_chars:]`, and when `skip_chars` is at least the record
length it returns the digest of the empty string rather than failing. -/
theorem C10_hash_line_total {α D : Type} (blake2b : List α → D) (line : List α)
    (skip_chars : Nat) :
    hash_line blake2b line skip_chars = blake2b (line.drop skip_chars) ∧
    (line.length ≤ skip_chars → hash_line blake2b line skip_chars = blake2b []) := by
  have h1 : hash_line blake2b line skip_chars = blake2b (line.drop skip_chars) := by
    by_cases h : skip_chars > 0
    · simp [hash_line, h]
    · have h0 : skip_chars = 0 := by omega
      subst h0
      simp [hash_line]
  refine ⟨h1, fun hle => ?_⟩
  rw [h1, List.drop_eq_nil_of_le hle]

/-- Witness for C10 at a concrete record and digest function. -/
theorem C10_hash_line_total_witness :
    hash_line (fun l : List Nat => l) [1, 2, 3] 5 = [] ∧
    hash_line (fun l : List Nat => l) [1, 2, 3] 1 = [2, 3] := by
  refine ⟨(C10_hash_line_total (fun l => l) [1, 2, 3] 5).2 (by decide), ?_⟩
  rw [(C10_hash_line_total (fun l : List Nat => l) [1, 2, 3] 1).1]
  decide

/-- C7: filter evaluation applies the first pattern whose regex matches and
returns its action; with no match, the record is bypassed when a track
pattern exists (allow-list) and tracked otherwise (deny-list); with an empty
pattern list every record is tracked.  Tracking is the
`should_deduplicate` decision of `process_line`. -/
theorem C7_filter_semantics {Rec : Type} (line : Rec)
    (fps : List (FilterPattern Rec)) :
    (∀ p, fps.find? (fun q => q.search line) = Option.some p →
      evaluate_filter line fps = (Option.some p.action, Option.some p.pattern)) ∧
    (fps.find? (fun q => q.search line) = Option.none →
      ((∃ q ∈ fps, q.action = FAction.track) →
        should_deduplicate (evaluate_filter line fps).1 = false) ∧
      ((¬ ∃ q ∈ fps, q.action = FAction.track) →
        should_deduplicate (evaluate_filter line fps).1 = true)) ∧
    (fps = [] → should_deduplicate (evaluate_filter line fps).1 = true) := by
  refine ⟨?_, ?_, ?_⟩
  · intro p hp
    have hne : fps ≠ [] := by
      intro h
      subst h
      simp at hp
    simp [evaluate_filter, List.isEmpty_iff, hne, hp]
  · intro hnone
    constructor
    · intro ⟨q, hq, hqt⟩
      have hne : fps ≠ [] := by
        intro h
        subst h
        simp at hq
      have hany : fps.any (fun p => decide (p.action = FAction.track)) = true := by
        simp only [List.any_eq_true, decide_eq_true_eq]
        exact ⟨q, hq, hqt⟩
      simp [evaluate_filter, List.isEmpty_iff, hne, hnone, hany, should_deduplicate]
    · intro hno
      by_cases hne : fps = []
      · subst hne
        simp [evaluate_filter, should_deduplicate]
      · have hany : fps.any (fun p => decide (p.action = FAction.track)) = false := by
          simp only [List.any_eq_false, decide_eq_true_eq]
          intro q hq hqt
          exact hno ⟨q, hq, hqt⟩
        simp [evaluate_filter, List.isEmpty_iff, hne, hnone, hany, should_deduplicate]
  · intro h
    subst h
    simp [evaluate_filter, should_deduplicate]

/-- Witness for C7 at a concrete line and pattern list. -/
theorem C7_filter_semantics_witness :
    evaluate_filter "e1" [⟨"e", FAction.bypass, fun r : String => r == "e1"⟩] =
      (Option.some FAction.bypass, Option.some "e") ∧
    should_deduplicate (evaluate_filter "e2"
      [⟨"e", FAction.bypass, fun r : String => r == "e1"⟩]).1 = true := by
  constructor
  · exact (C7_filter_semantics "e1"
      [⟨"e", FAction.bypass, fun r : String => r == "e1"⟩]).1
      ⟨"e", FAction.bypass, fun r : String => r == "e1"⟩ rfl
  · refine ((C7_filter_semantics "e2"
      [⟨"e", FAction.bypass, fun r : String => r == "e1"⟩]).2.1 rfl).2 ?_
    rintro ⟨q, hq, hqt⟩
    simp only [List.mem_singleton] at hq
    rw [hq] at hqt
    simp at hqt

/-- C9 counterexample: `c9Cfg` violates none of the conditions the claim
lists (window within bounded history, no unlimited-history conflict, no
double delimiter, no hex delimiter without binary mode, no filter patterns
with binary mode), yet argument validation rejects it (because it gives an
annotation format without enabling annotations), so validation does not
accept every configuration violating none of the listed conditions. -/
theorem C9_counterexample :
    (¬(c9Cfg.max_history.isSome ∧ c9Cfg.window_size > c9Cfg.max_history.getD 0)) ∧
    (¬(c9Cfg.unlimited_history = true ∧
        c9Cfg.max_history ≠ Option.some DEFAULT_MAX_HISTORY)) ∧
    (¬(c9Cfg.delimiter_hex.isSome ∧ c9Cfg.delimiter ≠ "\n")) ∧
    (¬(c9Cfg.delimiter_hex.isSome ∧ c9Cfg.byte_mode = false)) ∧
    (¬(c9Cfg.has_filter_patterns = true ∧ c9Cfg.byte_mode = true)) ∧
    (cli_validates c9Cfg).isOk = false := by
  decide

/-- C9 as amended: argument validation rejects exactly the configurations
hitting one of the listed conditions or one of the three further checks the
source makes (invalid stats format, non-default literal delimiter in binary
mode, annotation format without annotations); every other configuration is
accepted. -/
theorem C9_validate_characterization (c : CliConfig) :
    (cli_validates c).isOk = true ↔
      (¬(c.unlimited_history = true ∧
          c.max_history ≠ Option.some DEFAULT_MAX_HISTORY) ∧
       ¬(c.max_history.isSome ∧ c.window_size > c.max_history.getD 0) ∧
       (c.stats_format = "table" ∨ c.stats_format = "json") ∧
       ¬(c.delimiter_hex.isSome ∧ c.delimiter ≠ "\n") ∧
       ¬(c.delimiter_hex.isSome ∧ c.byte_mode = false) ∧
       ¬(c.byte_mode = true ∧ c.delimiter ≠ "\n") ∧
       ¬(c.annot_format.isSome ∧ c.annotate = false) ∧
       ¬(c.has_filter_patterns = true ∧ c.byte_mode = true)) := by
  unfold cli_validates validate_arguments
  split_ifs with h1 h2 h3 h4 h5 h6 h7 <;>
    (first
      | (simp_all [Except.isOk, Except.toBool]; tauto)
      | simp_all [Except.isOk, Except.toBool])

/-- Witness for C9's amended characterization at an accepted configuration. -/
theorem C9_validate_characterization_witness :
    (cli_validates { c9Cfg with annot_format := Option.none }).isOk = true :=
  (C9_validate_characterization { c9Cfg with annot_format := Option.none }).mpr
    (by decide)

set_option maxRecDepth 10000 in
/-- C2 fails on the code: in an inverse-mode run with the preloaded sequence
`X,Y,Z` (window 3), the eight-record input `V,X,Y,Q,V,X,Y,Z` finishes without
error with `total_input = 8` but `emitted = 3` and `skipped = 7`, so
`total_input = emitted + skipped` is violated (the confirmed-duplicate branch
adds `lines_to_skip` to the skip counter even though the matched lines had
already left the buffer and been counted). -/
theorem C2_conservation_violated :
    c2Res.2 = Option.none ∧
    (get_stats c2Res.1).total = 8 ∧
    (get_stats c2Res.1).emitted = 3 ∧
    (get_stats c2Res.1).skipped = 7 ∧
    (get_stats c2Res.1).total ≠
      (get_stats c2Res.1).emitted + (get_stats c2Res.1).skipped := by
  decide

set_option maxRecDepth 10000 in
/-- C3 counterexample: in the inverse-mode run on `c3Input` (window 3) the
tracked records of the output are not a subsequence of the tracked input: the
immediately-confirmed-duplicate branch emits the tail of the buffer (records
13-15) while record 12 is still buffered, and record 12 is emitted later by a
divergence, out of order. -/
theorem C3_counterexample :
    c3Res.2 = Option.none ∧
    ¬ List.Sublist (trackedOut c3Res.1.output) (trackedIn (strConfig 3 true) c3Input) := by
  decide

set_option maxRecDepth 10000 in
/-- C4 fails on the code: on `c4Input` (window 3, no preloads) the normal-mode
run completes but the inverse-mode run raises `TypeError` (resolving two
equal-length diverged matches compares a history match's `None`
`first_output_line` with a recorded sequence's integer one), and the two
outputs together do not partition the tracked input: record 16 (`X`) is
emitted by neither mode. -/
theorem C4_complementarity_violated :
    c4ResN.2 = Option.none ∧
    c4ResI.2 = Option.some PyError.typeError ∧
    ¬ List.Perm (trackedOut c4ResN.1.output ++ trackedOut c4ResI.1.output)
        (trackedIn (strConfig 3 false) c4Input) ∧
    (16, "X") ∈ trackedIn (strConfig 3 false) c4Input ∧
    (16, "X") ∉ trackedOut c4ResN.1.output ∧
    (16, "X") ∉ trackedOut c4ResI.1.output := by
  decide

section FifoLemmas

variable {H : Type} [DecidableEq H]



theorem except_bind_ok {α β ε : Type} (a : α) (g : α → Except ε β) :
    (Except.ok a : Except ε α) >>= g = g a := rfl

theorem except_bind_err {α β ε : Type} (e : ε) (g : α → Except ε β) :
    (Except.error e : Except ε α) >>= g = Except.error e := rfl

theorem except_map_ok {α β ε : Type} (a : α) (g : α → β) :
    (Except.ok a : Except ε α).map g = Except.ok (g a) := rfl

theorem except_map_err {α β ε : Type} (e : ε) (g : α → β) :
    (Except.error e : Except ε α).map g = Except.error e := rfl

theorem live_lt_next {f : PositionalFIFO H} (hWF : FIFO_WF f) {p : Nat}
    {e : HistoryEntry H} (h : getA f.position_to_entry p = Option.some e) :
    f.oldest_position ≤ p ∧ p < f.next_position := by
  obtain ⟨hNext, hKeys, -, -, -⟩ := hWF
  have hmem : p ∈ f.position_to_entry.map Prod.fst :=
    (getA_isSome_iff_mem _ _).mp (by simp [h])
  rw [hKeys] at hmem
  have := List.mem_range'_1.mp hmem
  omega

theorem next_not_live {f : PositionalFIFO H} (hWF : FIFO_WF f) :
    getA f.position_to_entry f.next_position = Option.none := by
  cases hg : getA f.position_to_entry f.next_position with
  | none => rfl
  | some e => exact absurd (live_lt_next hWF hg).2 (by omega)

/-- The add step of `PositionalFIFO.append` preserves well-formedness and
touches no other position. -/
theorem fifo_add (f : PositionalFIFO H) (key : H) (hWF : FIFO_WF f) :
    FIFO_WF { f with
      position_to_entry := setA f.position_to_entry f.next_position
        { window_hash := key, first_output_line := Option.none }
      key_to_positions :=
        match getA f.key_to_positions key with
        | Option.none => setA f.key_to_positions key [f.next_position]
        | Option.some l => setA f.key_to_positions key (l ++ [f.next_position])
      next_position := f.next_position + 1 } := by
  obtain ⟨hNext, hKeys, hNodup, hRev, hNone⟩ := hWF
  have hfresh : getA f.position_to_entry f.next_position = Option.none :=
    next_not_live ⟨hNext, hKeys, hNodup, hRev, hNone⟩
  have hp2e : setA f.position_to_entry f.next_position
      ⟨key, Option.none⟩ = f.position_to_entry ++ [(f.next_position, ⟨key, Option.none⟩)] :=
    setA_of_getA_none hfresh _
  have hlive' : ∀ p, p ≠ f.next_position →
      getA (setA f.position_to_entry f.next_position ⟨key, Option.none⟩) p =
        getA f.position_to_entry p := fun p hp => getA_setA_ne _ _ hp
  have hlive'' : getA (setA f.position_to_entry f.next_position ⟨key, Option.none⟩)
      f.next_position = Option.some ⟨key, Option.none⟩ := getA_setA_self _ _ _
  refine ⟨?_, ?_, ?_, ?_, ?_⟩
  · -- next' = oldest + len'
    simp only [hp2e, List.length_append, List.length_cons, List.length_nil]
    omega
  · -- keys of p2e' form the extended range
    simp only [hp2e, List.map_append, List.length_append, hKeys]
    simp [List.range'_concat, hNext]
  · -- nodup keys of k2p'
    cases hk : getA f.key_to_positions key with
    | none =>
      rw [setA_of_getA_none hk]
      simp only [List.map_append, List.map_cons, List.map_nil]
      refine List.Nodup.append hNodup (by simp) ?_
      intro a ha hb
      simp only [List.mem_singleton] at hb
      subst hb
      exact absurd ((getA_isSome_iff_mem _ _).mpr ha) (by simp [hk])
    | some l =>
      rw [keys_setA_of_some hk]
      exact hNodup
  · -- reverse index correctness
    intro k ps hps
    by_cases hkey : k = key
    · subst hkey
      cases hk : getA f.key_to_positions k with
      | none =>
        simp only [hk] at hps
        rw [getA_setA_self] at hps
        cases hps
        refine ⟨by simp, by simp, ?_⟩
        intro p
        constructor
        · intro hp
          simp at hp
          subst hp
          exact ⟨_, hlive'', rfl⟩
        · rintro ⟨e, he, hhash⟩
          by_cases hp : p = f.next_position
          · simp [hp]
          · rw [hlive' p hp] at he
            exact absurd hhash (hNone k hk p e he)
      | some l =>
        simp only [hk] at hps
        rw [getA_setA_self] at hps
        cases hps
        obtain ⟨hne, hsort, hmem⟩ := hRev k l hk
        have hlt : ∀ x ∈ l, x < f.next_position := by
          intro x hx
          obtain ⟨e, he, -⟩ := (hmem x).mp hx
          exact (live_lt_next ⟨hNext, hKeys, hNodup, hRev, hNone⟩ he).2
        refine ⟨by simp, ?_, ?_⟩
        · rw [List.Sorted, List.pairwise_append]
          exact ⟨hsort, by simp, by simpa using hlt⟩
        · intro p
          rw [List.mem_append, List.mem_singleton]
          constructor
          · rintro (hp | hp)
            · obtain ⟨e, he, hh⟩ := (hmem p).mp hp
              have hpne : p ≠ f.next_position := by
                intro hEq
                subst hEq
                simp [hfresh] at he
              exact ⟨e, by rw [hlive' p hpne]; exact he, hh⟩
            · subst hp
              exact ⟨_, hlive'', rfl⟩
          · rintro ⟨e, he, hh⟩
            by_cases hp : p = f.next_position
            · right; exact hp
            · left
              rw [hlive' p hp] at he
              exact (hmem p).mpr ⟨e, he, hh⟩
    · -- k ≠ key: untouched
      have hget : getA (match getA f.key_to_positions key with
          | Option.none => setA f.key_to_positions key [f.next_position]
          | Option.some l => setA f.key_to_positions key (l ++ [f.next_position])) k =
          getA f.key_to_positions k := by
        cases hk : getA f.key_to_positions key <;> exact getA_setA_ne _ _ hkey
      rw [hget] at hps
      obtain ⟨hne, hsort, hmem⟩ := hRev k ps hps
      refine ⟨hne, hsort, ?_⟩
      intro p
      rw [hmem p]
      constructor
      · rintro ⟨e, he, hh⟩
        have hpne : p ≠ f.next_position := by
          intro hEq
          subst hEq
          simp [hfresh] at he
        exact ⟨e, by rw [hlive' p hpne]; exact he, hh⟩
      · rintro ⟨e, he, hh⟩
        by_cases hp : p = f.next_position
        · subst hp
          rw [hlive''] at he
          cases he
          exact absurd hh.symm hkey
        · rw [hlive' p hp] at he
          exact ⟨e, he, hh⟩
  · -- absent fingerprints have no live position
    intro k hk p e he
    by_cases hkey : k = key
    · subst hkey
      exfalso
      cases hg : getA f.key_to_positions k with
      | none => simp [hg, getA_setA_self] at hk
      | some l => simp [hg, getA_setA_self] at hk
    · have hget : getA (match getA f.key_to_positions key with
          | Option.none => setA f.key_to_positions key [f.next_position]
          | Option.some l => setA f.key_to_positions key (l ++ [f.next_position])) k =
          getA f.key_to_positions k := by
        cases hg : getA f.key_to_positions key <;> exact getA_setA_ne _ _ hkey
      rw [hget] at hk
      by_cases hp : p = f.next_position
      · subst hp
        rw [hlive''] at he
        cases he
        exact Ne.symm hkey
      · rw [hlive' p hp] at he
        exact hNone k hk p e he



/-- The eviction step of `PositionalFIFO.append` preserves well-formedness. -/
theorem fifo_evict_WF (f : PositionalFIFO H) (hWF : FIFO_WF f)
    (e₀ : HistoryEntry H) (rest : List (Nat × HistoryEntry H)) (qs : List Nat)
    (hhd : f.position_to_entry = (f.oldest_position, e₀) :: rest)
    (hqs : getA f.key_to_positions e₀.window_hash =
      Option.some (f.oldest_position :: qs)) :
    FIFO_WF { f with
      position_to_entry := rest
      key_to_positions :=
        if qs.isEmpty then delA f.key_to_positions e₀.window_hash
        else setA f.key_to_positions e₀.window_hash qs
      oldest_position := f.oldest_position + 1 } := by
  obtain ⟨hNext, hKeys, hNodup, hRev, hNone⟩ := hWF
  rw [hhd] at hKeys
  simp only [List.map_cons, List.length_cons] at hKeys
  rw [List.range'_succ] at hKeys
  have hrestKeys : rest.map Prod.fst = List.range' (f.oldest_position + 1) rest.length :=
    (List.cons.injEq _ _ _ _).mp hKeys |>.2
  have hrest_oldest : getA rest f.oldest_position = Option.none := by
    apply getA_eq_none_of_not_mem
    rw [hrestKeys]
    intro hmem
    have := List.mem_range'_1.mp hmem
    omega
  have hrest_frame : ∀ p, p ≠ f.oldest_position →
      getA rest p = getA f.position_to_entry p := by
    intro p hp
    rw [hhd, getA_cons]
    simp [Ne.symm hp]
  obtain ⟨-, hsort₀, hmem₀⟩ := hRev e₀.window_hash _ hqs
  rw [List.sorted_cons] at hsort₀
  refine ⟨?_, ?_, ?_, ?_, ?_⟩
  · rw [hhd] at hNext
    simp only [List.length_cons] at hNext
    simp only []
    omega
  · exact hrestKeys
  · by_cases hq : qs.isEmpty
    · simp only [hq, if_pos]
      rw [keys_delA]
      exact hNodup.erase _
    · simp only [hq, if_neg, Bool.false_eq_true, not_false_iff]
      rw [keys_setA_of_some hqs]
      exact hNodup
  · intro k ps hps
    by_cases hkey : k = e₀.window_hash
    · subst hkey
      by_cases hq : qs.isEmpty
      · rw [if_pos hq] at hps
        rw [getA_delA_self hNodup] at hps
        cases hps
      · rw [if_neg hq] at hps
        rw [getA_setA_self] at hps
        cases hps
        refine ⟨by simpa using hq, hsort₀.2, ?_⟩
        intro p
        constructor
        · intro hp
          have hpo : f.oldest_position < p := hsort₀.1 p hp
          obtain ⟨e, he, hh⟩ := (hmem₀ p).mp (List.mem_cons_of_mem _ hp)
          exact ⟨e, by rw [hrest_frame p (by omega)]; exact he, hh⟩
        · rintro ⟨e, he, hh⟩
          have hpne : p ≠ f.oldest_position := by
            intro hEq
            subst hEq
            simp [hrest_oldest] at he
          rw [hrest_frame p hpne] at he
          have := (hmem₀ p).mpr ⟨e, he, hh⟩
          rcases List.mem_cons.mp this with hEq | hp
          · exact absurd hEq hpne
          · exact hp
    · have hget : getA (if qs.isEmpty then delA f.key_to_positions e₀.window_hash
          else setA f.key_to_positions e₀.window_hash qs) k =
          getA f.key_to_positions k := by
        by_cases hq : qs.isEmpty
        · rw [if_pos hq]
          exact getA_delA_ne _ hkey
        · rw [if_neg hq]
          exact getA_setA_ne _ _ hkey
      rw [hget] at hps
      obtain ⟨hne, hsort, hmem⟩ := hRev k ps hps
      refine ⟨hne, hsort, ?_⟩
      intro p
      rw [hmem p]
      constructor
      · rintro ⟨e, he, hh⟩
        have hpne : p ≠ f.oldest_position := by
          intro hEq
          subst hEq
          rw [hhd, getA_cons] at he
          simp at he
          rw [← he] at hh
          exact hkey hh.symm
        exact ⟨e, by rw [hrest_frame p hpne]; exact he, hh⟩
      · rintro ⟨e, he, hh⟩
        have hpne : p ≠ f.oldest_position := by
          intro hEq
          subst hEq
          simp [hrest_oldest] at he
        rw [hrest_frame p hpne] at he
        exact ⟨e, he, hh⟩
  · intro k hk p e he
    by_cases hkey : k = e₀.window_hash
    · subst hkey
      by_cases hq : qs.isEmpty
      · have hq' : qs = [] := by simpa using hq
        subst hq'
        intro hh
        have hpne : p ≠ f.oldest_position := by
          intro hEq
          subst hEq
          simp [hrest_oldest] at he
        rw [hrest_frame p hpne] at he
        have := (hmem₀ p).mpr ⟨e, he, hh⟩
        rcases List.mem_cons.mp this with hEq | hp
        · exact hpne hEq
        · simp at hp
      · rw [if_neg hq, getA_setA_self] at hk
        cases hk
    · have hget : getA (if qs.isEmpty then delA f.key_to_positions e₀.window_hash
          else setA f.key_to_positions e₀.window_hash qs) k =
          getA f.key_to_positions k := by
        by_cases hq : qs.isEmpty
        · rw [if_pos hq]
          exact getA_delA_ne _ hkey
        · rw [if_neg hq]
          exact getA_setA_ne _ _ hkey
      rw [hget] at hk
      have hpne : p ≠ f.oldest_position := by
        intro hEq
        subst hEq
        simp [hrest_oldest] at he
      rw [hrest_frame p hpne] at he
      exact hNone k hk p e he



/-- In a well-formed FIFO, `find_all_positions` returns exactly the live
positions carrying the fingerprint, in ascending order. -/
theorem fifo_WF_find_all {f : PositionalFIFO H} (hWF : FIFO_WF f) (k : H) :
    List.Sorted (fun a b => a < b) (f.find_all_positions k) ∧
    (∀ p, p ∈ f.find_all_positions k ↔
      ∃ e, f.get_entry p = Option.some e ∧ e.window_hash = k) := by
  obtain ⟨hNext, hKeys, hNodup, hRev, hNone⟩ := hWF
  cases hg : getA f.key_to_positions k with
  | none =>
    constructor
    · simp [PositionalFIFO.find_all_positions, hg]
    · intro p
      simp only [PositionalFIFO.find_all_positions, hg, Option.getD_none,
        List.not_mem_nil, false_iff]
      rintro ⟨e, he, hh⟩
      exact hNone k hg p e he hh
  | some ps =>
    obtain ⟨-, hsort, hmem⟩ := hRev k ps hg
    constructor
    · simpa [PositionalFIFO.find_all_positions, hg] using hsort
    · intro p
      simpa [PositionalFIFO.find_all_positions, hg, PositionalFIFO.get_entry]
        using hmem p

/-- Bundle of properties of the add step of `append`. -/
theorem fifo_add_props (f : PositionalFIFO H) (key : H) (hWF : FIFO_WF f) :
    FIFO_WF { f with
      position_to_entry := setA f.position_to_entry f.next_position
        { window_hash := key, first_output_line := Option.none }
      key_to_positions :=
        match getA f.key_to_positions key with
        | Option.none => setA f.key_to_positions key [f.next_position]
        | Option.some l => setA f.key_to_positions key (l ++ [f.next_position])
      next_position := f.next_position + 1 } ∧
    getA (setA f.position_to_entry f.next_position
      { window_hash := key, first_output_line := Option.none }) f.next_position =
      Option.some { window_hash := key, first_output_line := Option.none } ∧
    (∀ p, p ≠ f.next_position →
      getA (setA f.position_to_entry f.next_position
        { window_hash := key, first_output_line := Option.none }) p =
      getA f.position_to_entry p) :=
  ⟨fifo_add f key hWF, getA_setA_self _ _ _, fun _ hp => getA_setA_ne _ _ hp⟩



/-- C6 as amended: for a positional FIFO of any capacity at least one (or
unlimited), every append on a well-formed FIFO succeeds, assigns exactly the
next (strictly increasing) position, keeps `oldest_position ≤ next_position`,
keeps the reverse index mapping each window fingerprint to exactly the set of
live positions holding it with `find_all_positions` ascending, and at
capacity evicts exactly the oldest live position without renumbering or
invalidating any higher position.  (The claim's "any capacity" fails at
capacity zero, where the first append raises `KeyError`.) -/
theorem C6_fifo_invariants (f : PositionalFIFO H) (key : H) (hWF : FIFO_WF f)
    (hcap : f.maxsize = Option.none ∨ ∃ m, f.maxsize = Option.some m ∧ 1 ≤ m) :
    ∃ f2, f.append key = Except.ok (f2, f.next_position) ∧
      FIFO_WF f2 ∧
      f2.next_position = f.next_position + 1 ∧
      f2.oldest_position ≤ f2.next_position ∧
      (∀ k, List.Sorted (fun a b => a < b) (f2.find_all_positions k)) ∧
      (∀ k p, p ∈ f2.find_all_positions k ↔
        ∃ e, f2.get_entry p = Option.some e ∧ e.window_hash = k) ∧
      f2.get_entry f.next_position =
        Option.some { window_hash := key, first_output_line := Option.none } ∧
      (∀ m, f.maxsize = Option.some m → m ≤ f.position_to_entry.length →
        f2.oldest_position = f.oldest_position + 1 ∧
        f2.get_entry f.oldest_position = Option.none ∧
        (∀ p, p ≠ f.oldest_position → p ≠ f.next_position →
          f2.get_entry p = f.get_entry p)) ∧
      ((f.maxsize = Option.none ∨
          ∀ m, f.maxsize = Option.some m → f.position_to_entry.length < m) →
        f2.oldest_position = f.oldest_position ∧
        (∀ p, p ≠ f.next_position → f2.get_entry p = f.get_entry p)) := by
  rcases hcap with hms | ⟨m, hms, hm⟩
  · -- unlimited history: no eviction
    obtain ⟨hWF2, hself, hframe⟩ := fifo_add_props f key hWF
    have happ : f.append key = Except.ok ({ f with
        position_to_entry := setA f.position_to_entry f.next_position
          { window_hash := key, first_output_line := Option.none }
        key_to_positions :=
          match getA f.key_to_positions key with
          | Option.none => setA f.key_to_positions key [f.next_position]
          | Option.some l => setA f.key_to_positions key (l ++ [f.next_position])
        next_position := f.next_position + 1 }, f.next_position) := by
      unfold PositionalFIFO.append
      conv_lhs => rw [hms]
      rfl
    refine ⟨_, happ, hWF2, rfl, ?_, fun k => (fifo_WF_find_all hWF2 k).1,
      fun k p => (fifo_WF_find_all hWF2 k).2 p, hself, ?_, ?_⟩
    · show f.oldest_position ≤ f.next_position + 1
      have hNx := hWF.1
      omega
    · intro m hmx
      rw [hms] at hmx
      cases hmx
    · exact fun _ => ⟨rfl, fun p hp => hframe p hp⟩
  · by_cases hlen : m ≤ f.position_to_entry.length
    · -- at capacity: evict the oldest, then add
      obtain ⟨hNext, hKeys, hNodup, hRev, hNone⟩ := hWF
      have hWFf : FIFO_WF f := ⟨hNext, hKeys, hNodup, hRev, hNone⟩
      -- the buffer is nonempty and headed by the oldest position
      obtain ⟨hd, rest, hp2e⟩ : ∃ hd rest, f.position_to_entry = hd :: rest := by
        cases hx : f.position_to_entry with
        | nil =>
          rw [hx] at hlen
          simp at hlen
          omega
        | cons hd rest => exact ⟨hd, rest, rfl⟩
      obtain ⟨p₀, e₀⟩ := hd
      have hp₀ : p₀ = f.oldest_position := by
        have := hKeys
        rw [hp2e] at this
        simp only [List.map_cons, List.length_cons, List.range'_succ] at this
        exact ((List.cons.injEq _ _ _ _).mp this).1
      subst hp₀
      have hE0 : getA f.position_to_entry f.oldest_position = Option.some e₀ := by
        rw [hp2e, getA_cons, if_pos rfl]
      have hK0 : ∃ ps, getA f.key_to_positions e₀.window_hash = Option.some ps := by
        cases hg : getA f.key_to_positions e₀.window_hash with
        | none => exact absurd rfl (hNone _ hg _ _ hE0)
        | some ps => exact ⟨ps, rfl⟩
      obtain ⟨ps, hps⟩ := hK0
      obtain ⟨hne, hsort, hmem⟩ := hRev _ _ hps
      have hold_mem : f.oldest_position ∈ ps := (hmem _).mpr ⟨e₀, hE0, rfl⟩
      obtain ⟨qs, hqs⟩ : ∃ qs, ps = f.oldest_position :: qs := by
        cases hx : ps with
        | nil =>
          rw [hx] at hold_mem
          simp at hold_mem
        | cons q qs =>
          rw [hx] at hold_mem hsort
          rcases List.mem_cons.mp hold_mem with hEq | hq
          · exact ⟨qs, by rw [hEq]⟩
          · exfalso
            have h1 : q < f.oldest_position := (List.sorted_cons.mp hsort).1 _ hq
            have h2 : f.oldest_position ≤ q := by
              obtain ⟨e, he, -⟩ := (hmem q).mp (by rw [hx]; exact List.mem_cons_self ..)
              exact (live_lt_next hWFf he).1
            omega
      subst hqs
      have hrem : pyRemove (f.oldest_position :: qs) f.oldest_position =
          Except.ok qs := by
        simp [pyRemove]
      -- the evicted intermediate state
      have hWF1 := fifo_evict_WF f hWFf e₀ rest qs hp2e hps
      obtain ⟨hWF2, hself, hframe⟩ := fifo_add_props _ key hWF1
      have happ : f.append key = Except.ok ({ f with
          position_to_entry := setA rest f.next_position
            { window_hash := key, first_output_line := Option.none }
          key_to_positions :=
            match getA (if qs.isEmpty then delA f.key_to_positions e₀.window_hash
              else setA f.key_to_positions e₀.window_hash qs) key with
            | Option.none =>
              setA (if qs.isEmpty then delA f.key_to_positions e₀.window_hash
                else setA f.key_to_positions e₀.window_hash qs) key [f.next_position]
            | Option.some l =>
              setA (if qs.isEmpty then delA f.key_to_positions e₀.window_hash
                else setA f.key_to_positions e₀.window_hash qs) key
                (l ++ [f.next_position])
          next_position := f.next_position + 1
          oldest_position := f.oldest_position + 1 }, f.next_position) := by
        have hdel : delA f.position_to_entry f.oldest_position = rest := by
          rw [hp2e]
          simp [delA]
        simp only [PositionalFIFO.append, hms]
        rw [if_pos (show f.position_to_entry.length ≥ m from hlen)]
        simp only [hE0, hps, hrem, except_bind_ok, hdel]
      have hlen1 : f.position_to_entry.length = rest.length + 1 := by
        rw [hp2e]; rfl
      have hrestKeys : rest.map Prod.fst =
          List.range' (f.oldest_position + 1) rest.length := by
        have hk := hKeys
        rw [hp2e] at hk
        simp only [List.map_cons, List.length_cons, List.range'_succ] at hk
        exact ((List.cons.injEq _ _ _ _).mp hk).2
      have hrest_oldest : getA rest f.oldest_position = Option.none := by
        apply getA_eq_none_of_not_mem
        rw [hrestKeys]
        intro hmem2
        have := List.mem_range'_1.mp hmem2
        omega
      have hrest_frame : ∀ p, p ≠ f.oldest_position →
          getA rest p = getA f.position_to_entry p := by
        intro p hp
        rw [hp2e, getA_cons]
        simp [Ne.symm hp]
      have hon : f.oldest_position ≠ f.next_position := by omega
      refine ⟨_, happ, hWF2, rfl, ?_, fun k => (fifo_WF_find_all hWF2 k).1,
        fun k p => (fifo_WF_find_all hWF2 k).2 p, hself, ?_, ?_⟩
      · show f.oldest_position + 1 ≤ f.next_position + 1
        omega
      · intro m2 hm2 hle
        rw [hms] at hm2
        cases hm2
        refine ⟨rfl, ?_, ?_⟩
        · show getA (setA rest f.next_position
            { window_hash := key, first_output_line := Option.none })
              f.oldest_position = Option.none
          rw [getA_setA_ne _ _ hon]
          exact hrest_oldest
        · intro p hpo hpn
          show getA (setA rest f.next_position
            { window_hash := key, first_output_line := Option.none }) p =
              getA f.position_to_entry p
          rw [getA_setA_ne _ _ hpn]
          exact hrest_frame p hpo
      · rintro (hx | hx)
        · rw [hms] at hx
          cases hx
        · exact absurd (hx m hms) (by omega)
    · -- bounded but below capacity: no eviction
      obtain ⟨hWF2, hself, hframe⟩ := fifo_add_props f key hWF
      have happ : f.append key = Except.ok ({ f with
          position_to_entry := setA f.position_to_entry f.next_position
            { window_hash := key, first_output_line := Option.none }
          key_to_positions :=
            match getA f.key_to_positions key with
            | Option.none => setA f.key_to_positions key [f.next_position]
            | Option.some l => setA f.key_to_positions key (l ++ [f.next_position])
          next_position := f.next_position + 1 }, f.next_position) := by
        simp only [PositionalFIFO.append, hms]
        rw [if_neg (show ¬ f.position_to_entry.length ≥ m by omega)]
        simp only [except_bind_ok, hms]
      refine ⟨_, happ, hWF2, rfl, ?_, fun k => (fifo_WF_find_all hWF2 k).1,
        fun k p => (fifo_WF_find_all hWF2 k).2 p, hself, ?_, ?_⟩
      · show f.oldest_position ≤ f.next_position + 1
        have hNx := hWF.1
        omega
      · intro m2 hm2 hle
        rw [hms] at hm2
        cases hm2
        exact absurd hle hlen
      · exact fun _ => ⟨rfl, fun p hp => hframe p hp⟩


end FifoLemmas

/-- C6 counterexample: with capacity zero (a bounded capacity the claim's
"any capacity" includes), the very first `append` raises `KeyError` in the
eviction branch instead of assigning a position and evicting the oldest live
entry (there is none). -/
theorem C6_counterexample :
    PositionalFIFO.append (PositionalFIFO.init String (Option.some 0)) "w" =
      Except.error PyError.keyError := rfl

/-- Witness for C6's amended invariants at a concrete FIFO of capacity one. -/
theorem C6_fifo_invariants_witness :
    ∃ f2, (PositionalFIFO.init String (Option.some 1)).append "wa" =
        Except.ok (f2, 0) ∧ FIFO_WF f2 ∧ f2.next_position = 1 := by
  have hWF : FIFO_WF (PositionalFIFO.init String (Option.some 1)) := by
    refine ⟨rfl, rfl, by simp [PositionalFIFO.init], ?_, ?_⟩
    · intro k ps hps
      simp [PositionalFIFO.init, getA] at hps
    · intro k hk p e he
      simp [PositionalFIFO.init, getA] at he
  obtain ⟨f2, h1, h2, h3, -⟩ :=
    C6_fifo_invariants (PositionalFIFO.init String (Option.some 1)) "wa" hWF
      (Or.inr ⟨1, rfl, le_refl 1⟩)
  exact ⟨f2, h1, h2, h3⟩

/-! ## Order, boundary, preload, and scenario theorems

Shared lemmas: `pending_tracked` (the tracked records already emitted plus
those still buffered) is preserved exactly by emission and only ever loses
elements to skipping, in every non-inverse configuration. -/

section OrderLemmas

variable {Rec H : Type} [DecidableEq H]

theorem trackedOut_append (a b : List (OutItem Rec)) :
    trackedOut (a ++ b) = trackedOut a ++ trackedOut b := by
  simp [trackedOut]

omit [DecidableEq H] in
theorem pending_tracked_trk (st : EngineState Rec H) (bl : BufferedLine Rec H)
    (rest : List (BufferedLine Rec H)) (h : st.line_buffer = bl :: rest) :
    pending_tracked st =
      trackedOut st.output ++ ((bl.input_line_num, bl.line) :: rest.map
        (fun b => (b.input_line_num, b.line))) := by
  rw [pending_tracked, h, List.map_cons]

omit [DecidableEq H] in
theorem emit_dedup_pop_pending (cfg : Config Rec H) (hinv : cfg.inverse = false)
    (bl : BufferedLine Rec H) (st : EngineState Rec H) :
    pending_tracked (emit_dedup_pop cfg bl st) =
      trackedOut st.output ++ ((bl.input_line_num, bl.line) ::
        st.line_buffer.map (fun b => (b.input_line_num, b.line))) ∧
    (emit_dedup_pop cfg bl st).line_num_input = st.line_num_input := by
  rw [emit_dedup_pop]
  simp only [hinv, Bool.false_eq_true, if_false]
  split
  · split
    · exact ⟨by simp [pending_tracked, trackedOut], rfl⟩
    · exact ⟨by simp [pending_tracked, trackedOut], rfl⟩
  · exact ⟨by simp [pending_tracked, trackedOut], rfl⟩

omit [DecidableEq H] in
theorem emit_loop_pending (cfg : Config Rec H) (hinv : cfg.inverse = false) :
    ∀ (fuel : Nat) (st : EngineState Rec H),
      pending_tracked (emit_loop cfg fuel st) = pending_tracked st ∧
      (emit_loop cfg fuel st).line_num_input = st.line_num_input := by
  intro fuel
  induction fuel with
  | zero => intro st; exact ⟨rfl, rfl⟩
  | succ fuel ih =>
    intro st
    rw [emit_loop]
    split
    · -- take_dedup branch
      cases hlb : st.line_buffer with
      | nil => exact ⟨rfl, rfl⟩
      | cons bl rest =>
        obtain ⟨h1, h2⟩ := ih (emit_dedup_pop cfg bl { st with line_buffer := rest })
        obtain ⟨h3, h4⟩ := emit_dedup_pop_pending cfg hinv bl { st with line_buffer := rest }
        refine ⟨?_, by rw [h2, h4]⟩
        rw [h1, h3, pending_tracked_trk st bl rest hlb]
    · split
      · -- filtered branch
        cases hfl : st.filtered_lines with
        | nil => exact ⟨rfl, rfl⟩
        | cons p rest =>
          obtain ⟨idx, line⟩ := p
          refine ⟨((ih _).1).trans ?_, (ih _).2⟩
          simp [pending_tracked, trackedOut]
      · exact ⟨rfl, rfl⟩

omit [DecidableEq H] in
theorem emit_merged_pending (cfg : Config Rec H) (hinv : cfg.inverse = false)
    (st : EngineState Rec H) :
    pending_tracked (emit_merged_lines cfg st) = pending_tracked st ∧
    (emit_merged_lines cfg st).line_num_input = st.line_num_input := by
  rw [emit_merged_lines]
  exact emit_loop_pending cfg hinv _ st

omit [DecidableEq H] in
theorem flush_drain_pending (cfg : Config Rec H) (hinv : cfg.inverse = false) :
    ∀ (fuel : Nat) (st : EngineState Rec H),
      pending_tracked (flush_drain cfg fuel st) = pending_tracked st ∧
      (flush_drain cfg fuel st).line_num_input = st.line_num_input := by
  intro fuel
  induction fuel with
  | zero => intro st; exact ⟨rfl, rfl⟩
  | succ fuel ih =>
    intro st
    rw [flush_drain]
    split
    · exact ⟨rfl, rfl⟩
    · split
      · -- take_dedup branch
        cases hlb : st.line_buffer with
        | nil => exact ⟨rfl, rfl⟩
        | cons bl rest =>
          simp only [hinv, Bool.false_eq_true, if_false]
          refine ⟨((ih _).1).trans ?_, (ih _).2⟩
          rw [pending_tracked_trk st bl rest hlb]
          simp [pending_tracked, trackedOut]
      · -- filtered branch
        cases hfl : st.filtered_lines with
        | nil => exact ⟨rfl, rfl⟩
        | cons p rest =>
          obtain ⟨idx, line⟩ := p
          refine ⟨((ih _).1).trans ?_, (ih _).2⟩
          simp [pending_tracked, trackedOut]

theorem record_sequence_pending (cfg : Config Rec H) (c : HistCand H)
    (st : EngineState Rec H) :
    pending_tracked (record_sequence cfg c st) = pending_tracked st ∧
    (record_sequence cfg c st).line_num_input = st.line_num_input := by
  rw [record_sequence]
  split
  · exact ⟨rfl, rfl⟩
  · exact ⟨rfl, rfl⟩

theorem finalize_match_pending (cfg : Config Rec H) (c : Candidate H) (n : Nat)
    (st : EngineState Rec H) :
    pending_tracked (finalize_match cfg c n st) = pending_tracked st ∧
    (finalize_match cfg c n st).line_num_input = st.line_num_input := by
  cases c with
  | recorded r => exact ⟨rfl, rfl⟩
  | history h => exact record_sequence_pending cfg h st

omit [DecidableEq H] in
theorem handle_pop_step_pending (cfg : Config Rec H) (hinv : cfg.inverse = false)
    (fol : FOL) (st : EngineState Rec H) :
    (pending_tracked (handle_pop_step cfg fol st)).Sublist (pending_tracked st) ∧
    (handle_pop_step cfg fol st).line_num_input = st.line_num_input := by
  rw [handle_pop_step]
  split
  · exact ⟨List.Sublist.refl _, rfl⟩
  · next bl rest heq =>
    simp only [hinv, Bool.false_eq_true, if_false]
    constructor
    · rw [pending_tracked_trk st bl rest heq]
      exact List.Sublist.append_left (List.sublist_cons_self _ _) _
    · trivial

omit [DecidableEq H] in
theorem confirmed_pop_step_pending (cfg : Config Rec H) (hinv : cfg.inverse = false)
    (st : EngineState Rec H) :
    (pending_tracked (confirmed_pop_step cfg st)).Sublist (pending_tracked st) ∧
    (confirmed_pop_step cfg st).line_num_input = st.line_num_input := by
  rw [confirmed_pop_step]
  split
  · exact ⟨List.Sublist.refl _, rfl⟩
  · simp only [hinv, Bool.false_eq_true, if_false]
    constructor
    · exact List.Sublist.append_left ((List.take_sublist _ _).map _) _
    · trivial

omit [DecidableEq H] in
theorem foldl_pending_mono {α : Type} (g : EngineState Rec H → α → EngineState Rec H)
    (hg : ∀ s a, (pending_tracked (g s a)).Sublist (pending_tracked s) ∧
      (g s a).line_num_input = s.line_num_input) :
    ∀ (l : List α) (s : EngineState Rec H),
      (pending_tracked (l.foldl g s)).Sublist (pending_tracked s) ∧
      (l.foldl g s).line_num_input = s.line_num_input := by
  intro l
  induction l with
  | nil => intro s; exact ⟨List.Sublist.refl _, rfl⟩
  | cons a l ih =>
    intro s
    rw [List.foldl_cons]
    obtain ⟨h1, h2⟩ := ih (g s a)
    obtain ⟨h3, h4⟩ := hg s a
    exact ⟨h1.trans h3, by rw [h2, h4]⟩

omit [DecidableEq H] in
theorem foldlM_pending_mono {α : Type}
    (g : EngineState Rec H → α → Except PyError (EngineState Rec H))
    (hg : ∀ s a s₂, g s a = Except.ok s₂ →
      (pending_tracked s₂).Sublist (pending_tracked s) ∧
      s₂.line_num_input = s.line_num_input) :
    ∀ (l : List α) (s s₂ : EngineState Rec H), l.foldlM g s = Except.ok s₂ →
      (pending_tracked s₂).Sublist (pending_tracked s) ∧
      s₂.line_num_input = s.line_num_input := by
  intro l
  induction l with
  | nil =>
    intro s s₂ h
    rw [List.foldlM_nil] at h
    injection h with h
    subst h
    exact ⟨List.Sublist.refl _, rfl⟩
  | cons a l ih =>
    intro s s₂ h
    rw [List.foldlM_cons] at h
    cases hg1 : g s a with
    | error e => rw [hg1, except_bind_err] at h; exact absurd h (by simp)
    | ok s₁ =>
      rw [hg1, except_bind_ok] at h
      obtain ⟨h1, h2⟩ := ih s₁ s₂ h
      obtain ⟨h3, h4⟩ := hg s a s₁ hg1
      exact ⟨h1.trans h3, by rw [h2, h4]⟩

theorem handle_pending (cfg : Config Rec H) (hinv : cfg.inverse = false)
    (diverged : List (Candidate H × Nat)) (st st' : EngineState Rec H)
    (hh : handle_subsequence_matches cfg diverged st = Except.ok st') :
    (pending_tracked st').Sublist (pending_tracked st) ∧
    st'.line_num_input = st.line_num_input := by
  rw [handle_subsequence_matches] at hh
  split at hh
  · injection hh with h
    subst h
    exact ⟨List.Sublist.refl _, rfl⟩
  · cases hsel : handle_select diverged with
    | error e => rw [hsel, except_bind_err] at hh; exact absurd hh (by simp)
    | ok sel =>
      rw [hsel, except_bind_ok] at hh
      try simp only [] at hh
      cases hA : handle_annot cfg sel.1 sel.2 (finalize_match cfg sel.1 sel.2 st) with
      | error e => rw [hA, except_bind_err] at hh; exact absurd hh (by simp)
      | ok aopt =>
        rw [hA, except_bind_ok] at hh
        try simp only [] at hh
        obtain ⟨hf1, hf2⟩ := foldl_pending_mono
          (fun s (x : Nat) => handle_pop_step cfg (Candidate.fol sel.1) s)
          (fun s a => handle_pop_step_pending cfg hinv (Candidate.fol sel.1) s)
          (List.range sel.2) (finalize_match cfg sel.1 sel.2 st)
        obtain ⟨he1, he2⟩ := finalize_match_pending cfg sel.1 sel.2 st
        rw [he1] at hf1
        cases aopt with
        | some a =>
          injection hh with h
          subst h
          exact ⟨hf1, hf2.trans he2⟩
        | none =>
          injection hh with h
          subst h
          exact ⟨hf1, hf2.trans he2⟩

theorem except_bind_ok_iff {α β ε : Type} (x : Except ε α) (g : α → Except ε β) (b : β) :
    (x >>= g = Except.ok b) ↔ ∃ a, x = Except.ok a ∧ g a = Except.ok b := by
  cases x with
  | error e => simp [except_bind_err]
  | ok a => simp [except_bind_ok]

omit [DecidableEq H] in
theorem pending_tracked_annots (st : EngineState Rec H) (v : List Annot) :
    pending_tracked { st with annots := v } = pending_tracked st := rfl

omit [DecidableEq H] in
theorem lni_annots (st : EngineState Rec H) (v : List Annot) :
    ({ st with annots := v } : EngineState Rec H).line_num_input =
      st.line_num_input := rfl

omit [DecidableEq H] in
theorem check_new_match_create_pending (cfg : Config Rec H)
    (st : EngineState Rec H) (cwh : H) (cid : CandId) (ts : Nat) (no : List Nat)
    (st' : EngineState Rec H) (b : Bool)
    (hh : check_for_new_uniq_matches.check_new_match_create cfg st cwh cid ts no =
      Except.ok (st', b)) :
    pending_tracked st' = pending_tracked st ∧
    st'.line_num_input = st.line_num_input := by
  rw [check_for_new_uniq_matches.check_new_match_create] at hh
  cases hmin : pyMinNat no with
  | error e => rw [hmin, except_bind_err] at hh; exact absurd hh (by simp)
  | ok p =>
    rw [hmin, except_bind_ok] at hh
    try simp only [] at hh
    cases hE : getA st.window_hash_history.position_to_entry p with
    | none =>
      rw [hE] at hh
      simp only [except_bind_err] at hh
      exact absurd hh (by simp)
    | some e =>
      rw [hE] at hh
      simp only [except_bind_ok] at hh
      simp only [Except.ok.injEq, Prod.mk.injEq] at hh
      obtain ⟨h1, h2⟩ := hh
      subst h1
      exact ⟨rfl, rfl⟩

theorem check_pending (cfg : Config Rec H) (hinv : cfg.inverse = false)
    (st : EngineState Rec H) (cwh : H) (st' : EngineState Rec H) (b : Bool)
    (hh : check_for_new_uniq_matches cfg st cwh = Except.ok (st', b)) :
    (pending_tracked st').Sublist (pending_tracked st) ∧
    st'.line_num_input = st.line_num_input := by
  rw [check_for_new_uniq_matches] at hh
  try simp only [] at hh
  split at hh
  · -- confirmed duplicate branch
    rw [except_bind_ok_iff] at hh
    obtain ⟨aopt, hA, hh⟩ := hh
    try simp only [] at hh
    simp only [hinv, Bool.false_and, Bool.false_eq_true, if_false] at hh
    cases aopt with
    | some a =>
      simp only [Except.ok.injEq, Prod.mk.injEq] at hh
      obtain ⟨h1, h2⟩ := hh
      subst h1
      rw [pending_tracked_annots, lni_annots]
      exact ⟨(foldl_pending_mono _ (fun s a => confirmed_pop_step_pending cfg hinv s) _ _).1,
        (foldl_pending_mono _ (fun s a => confirmed_pop_step_pending cfg hinv s) _ _).2⟩
    | none =>
      simp only [Except.ok.injEq, Prod.mk.injEq] at hh
      obtain ⟨h1, h2⟩ := hh
      subst h1
      exact ⟨(foldl_pending_mono _ (fun s a => confirmed_pop_step_pending cfg hinv s) _ _).1,
        (foldl_pending_mono _ (fun s a => confirmed_pop_step_pending cfg hinv s) _ _).2⟩
  · -- phase 3b
    split at hh
    · simp only [Except.ok.injEq, Prod.mk.injEq] at hh
      obtain ⟨h1, h2⟩ := hh
      subst h1
      exact ⟨List.Sublist.refl _, rfl⟩
    · split at hh
      · simp only [Except.ok.injEq, Prod.mk.injEq] at hh
        obtain ⟨h1, h2⟩ := hh
        subst h1
        exact ⟨List.Sublist.refl _, rfl⟩
      · split at hh
        · split at hh
          · exact absurd hh (by simp)
          · obtain ⟨h1, h2⟩ := check_new_match_create_pending cfg _ cwh _ _ _ st' b hh
            constructor
            · rw [h1]; exact List.Sublist.refl _
            · exact h2
        · obtain ⟨h1, h2⟩ := check_new_match_create_pending cfg _ cwh _ _ _ st' b hh
          constructor
          · rw [h1]; exact List.Sublist.refl _
          · exact h2

theorem sublist_of_eq {α : Type} {l₁ l₂ : List α} (h : l₁ = l₂) : l₁.Sublist l₂ :=
  h ▸ List.Sublist.refl _

theorem process_line_pending (cfg : Config Rec H) (hinv : cfg.inverse = false)
    (st : EngineState Rec H) (r : Rec) (st' : EngineState Rec H)
    (hp : process_line cfg st r = Except.ok st') :
    (pending_tracked st').Sublist (pending_tracked st ++
      (if should_deduplicate (evaluate_filter r cfg.filter_patterns).1 then
        [(st.line_num_input + 1, r)] else [])) ∧
    st'.line_num_input = st.line_num_input + 1 := by
  rw [process_line] at hp
  try simp only [] at hp
  split at hp
  · -- bypassed record
    next hcond =>
    injection hp with h
    subst h
    rw [Bool.not_eq_true'] at hcond
    simp only [hcond, Bool.false_eq_true, if_false, List.append_nil]
    constructor
    · rw [(emit_merged_pending cfg hinv _).1]
      exact List.Sublist.refl _
    · rw [(emit_merged_pending cfg hinv _).2]
  · -- tracked record
    next hcond =>
    have hc : should_deduplicate (evaluate_filter r cfg.filter_patterns).1 = true := by
      simpa using hcond
    simp only [hc, if_true]
    split at hp
    · -- fewer than window_size records buffered
      injection hp with h
      subst h
      constructor
      · exact sublist_of_eq (by simp [pending_tracked, trackedOut])
      · rfl
    · -- full pipeline
      rw [except_bind_ok_iff] at hp
      obtain ⟨st₃, hPhase1, hp⟩ := hp
      rw [except_bind_ok_iff] at hp
      obtain ⟨rr, hCheck, hp⟩ := hp
      obtain ⟨rst, rb⟩ := rr
      try simp only [] at hp
      have hP : (pending_tracked st₃).Sublist
          (pending_tracked st ++ [(st.line_num_input + 1, r)]) ∧
          st₃.line_num_input = st.line_num_input + 1 := by
        obtain ⟨hH1, hH2⟩ := handle_pending cfg hinv _ _ _ hPhase1
        constructor
        · refine hH1.trans (sublist_of_eq ?_)
          simp [update_sequence_candidates, pending_tracked, trackedOut]
        · rw [hH2]; rfl
      obtain ⟨hP1, hP2⟩ := hP
      obtain ⟨hC1, hC2⟩ := check_pending cfg hinv _ _ _ _ hCheck
      split at hp
      · -- confirmed duplicate: early return
        injection hp with h
        subst h
        exact ⟨hC1.trans hP1, hC2.trans hP2⟩
      · -- append to history, then emit
        rw [except_bind_ok_iff] at hp
        obtain ⟨ap, hAp, hp⟩ := hp
        injection hp with h
        subst h
        constructor
        · rw [(emit_merged_pending cfg hinv _).1]
          exact hC1.trans hP1
        · rw [(emit_merged_pending cfg hinv _).2]
          exact hC2.trans hP2

theorem flush_candidate_step_pending (cfg : Config Rec H) (hinv : cfg.inverse = false)
    (s : EngineState Rec H) (c : HistCand H) (s₂ : EngineState Rec H)
    (hh : flush_candidate_step cfg s c = Except.ok s₂) :
    (pending_tracked s₂).Sublist (pending_tracked s) ∧
    s₂.line_num_input = s.line_num_input := by
  rw [flush_candidate_step] at hh
  try simp only [] at hh
  split at hh
  · split at hh
    · simp only [hinv, Bool.false_and, Bool.false_eq_true, if_false] at hh
      split at hh
      · injection hh with h
        subst h
        constructor
        · rw [(record_sequence_pending cfg c _).1, pending_tracked_annots]
          exact List.Sublist.append_left ((List.take_sublist _ _).map _) _
        · rw [(record_sequence_pending cfg c _).2, lni_annots]
      · injection hh with h
        subst h
        constructor
        · rw [(record_sequence_pending cfg c _).1]
          exact List.Sublist.append_left ((List.take_sublist _ _).map _) _
        · rw [(record_sequence_pending cfg c _).2]
    · injection hh with h
      subst h
      exact ⟨List.Sublist.refl _, rfl⟩
  · injection hh with h
    subst h
    exact ⟨List.Sublist.refl _, rfl⟩

theorem flush_pending (cfg : Config Rec H) (hinv : cfg.inverse = false)
    (st st' : EngineState Rec H) (hf : flush cfg st = Except.ok st') :
    (pending_tracked st').Sublist (pending_tracked st) ∧
    st'.line_num_input = st.line_num_input := by
  rw [flush] at hf
  try simp only [] at hf
  rw [except_bind_ok_iff] at hf
  obtain ⟨s₁, hFold, hf⟩ := hf
  injection hf with h
  subst h
  obtain ⟨h1, h2⟩ := foldlM_pending_mono (flush_candidate_step cfg)
    (fun s a s₂ hh => flush_candidate_step_pending cfg hinv s a s₂ hh) _ _ _ hFold
  constructor
  · rw [(flush_drain_pending cfg hinv _ _).1]
    exact h1
  · rw [(flush_drain_pending cfg hinv _ _).2]
    exact h2

omit [DecidableEq H] in
theorem trackedInFrom_nil (cfg : Config Rec H) (k : Nat) :
    trackedInFrom cfg k [] = [] := rfl

omit [DecidableEq H] in
theorem trackedInFrom_cons (cfg : Config Rec H) (k : Nat) (r : Rec) (rest : List Rec) :
    trackedInFrom cfg k (r :: rest) =
      (if should_deduplicate (evaluate_filter r cfg.filter_patterns).1 then
        [(k, r)] else []) ++ trackedInFrom cfg (k + 1) rest := by
  by_cases h : should_deduplicate (evaluate_filter r cfg.filter_patterns).1 = true
  · simp [trackedInFrom, List.filterMap_cons, h]
  · simp only [Bool.not_eq_true] at h
    simp [trackedInFrom, List.filterMap_cons, h]

theorem runAux_pending (cfg : Config Rec H) (hinv : cfg.inverse = false) :
    ∀ (input : List Rec) (st : EngineState Rec H),
      (pending_tracked (runAux cfg st input).1).Sublist
        (pending_tracked st ++ trackedInFrom cfg (st.line_num_input + 1) input) := by
  intro input
  induction input with
  | nil =>
    intro st
    rw [trackedInFrom_nil, List.append_nil]
    exact List.Sublist.refl _
  | cons r rest ih =>
    intro st
    simp only [runAux]
    cases hpl : process_line cfg st r with
    | error e =>
      exact List.sublist_append_left _ _
    | ok st₁ =>
      obtain ⟨hp1, hp2⟩ := process_line_pending cfg hinv st r st₁ hpl
      have hIH := ih st₁
      rw [hp2] at hIH
      refine hIH.trans ?_
      rw [trackedInFrom_cons, ← List.append_assoc]
      exact List.Sublist.append_right hp1 _


theorem C5_runAux_short (cfg : Config Rec H) (hf : cfg.filter_patterns = []) :
    ∀ (input : List Rec) (st : EngineState Rec H),
      st.line_buffer.length + input.length < cfg.window_size →
      ∃ st', runAux cfg st input = (st', Option.none) ∧
        st'.line_buffer.map (fun b => (b.input_line_num, b.line)) =
          st.line_buffer.map (fun b => (b.input_line_num, b.line)) ++
            List.enumFrom (st.line_num_input + 1) input ∧
        st'.filtered_lines = st.filtered_lines ∧
        st'.sequence_candidates = st.sequence_candidates ∧
        st'.sequence_records = st.sequence_records ∧
        st'.output = st.output ∧
        st'.lines_skipped = st.lines_skipped ∧
        st'.line_num_output = st.line_num_output ∧
        st'.line_num_input = st.line_num_input + input.length := by
  intro input
  induction input with
  | nil =>
    intro st _
    exact ⟨st, rfl, by simp, rfl, rfl, rfl, rfl, rfl, rfl, rfl⟩
  | cons r rest ih =>
    intro st hlen
    rw [List.length_cons] at hlen
    have hsz : st.line_buffer.length + 1 < cfg.window_size := by omega
    have hp : process_line cfg st r = Except.ok
        { st with
            line_num_input := st.line_num_input + 1
            line_num_input_tracked := st.line_num_input_tracked + 1
            line_buffer := st.line_buffer ++
              [{ line := r, line_hash := cfg.lineFp r,
                 input_line_num := st.line_num_input + 1,
                 tracked_line_num := st.line_num_input_tracked + 1 }] } := by
      simp [process_line, hf, evaluate_filter, should_deduplicate, hsz]
    obtain ⟨st', hrun, hlb, hfl, hsc, hsr, hout, hsk, hlno, hlni⟩ :=
      ih { st with
            line_num_input := st.line_num_input + 1
            line_num_input_tracked := st.line_num_input_tracked + 1
            line_buffer := st.line_buffer ++
              [{ line := r, line_hash := cfg.lineFp r,
                 input_line_num := st.line_num_input + 1,
                 tracked_line_num := st.line_num_input_tracked + 1 }] }
        (by simp only [List.length_append, List.length_cons, List.length_nil]; omega)
    refine ⟨st', ?_, ?_, hfl, hsc, hsr, hout, hsk, hlno, ?_⟩
    · simp only [runAux, hp]
      exact hrun
    · rw [hlb]
      simp [List.enumFrom_cons]
    · simp only [List.length_cons]
      simp at hlni
      omega

omit [DecidableEq H] in
theorem C5_flush_drain_all (cfg : Config Rec H) (hinv : cfg.inverse = false) :
    ∀ (lb : List (BufferedLine Rec H)) (st : EngineState Rec H),
      st.line_buffer = lb → st.filtered_lines = [] →
      flush_drain cfg lb.length st =
        { st with
            line_buffer := ([] : List (BufferedLine Rec H)),
            output := st.output ++ lb.map (fun b => OutItem.trk b.input_line_num b.line),
            line_num_output := st.line_num_output + lb.length } := by
  intro lb
  induction lb with
  | nil =>
    intro st hlb hfl
    rw [List.length_nil]
    show st = _
    cases st
    simp_all
  | cons bl rest ih =>
    intro st hlb hfl
    rw [List.length_cons]
    show flush_drain cfg (rest.length + 1) st = _
    have hne : ¬(st.line_buffer.isEmpty && st.filtered_lines.isEmpty) = true := by
      simp [hlb]
    have hcond : drain_take_dedup st = true := by
      simp [drain_take_dedup, hlb, hfl, leNumInf]
    rw [flush_drain, if_neg hne, if_pos hcond, hlb]
    simp only [hinv, Bool.false_eq_true, if_false]
    rw [ih { st with
        line_buffer := rest
        line_num_output := st.line_num_output + 1
        output := st.output ++ [OutItem.trk bl.input_line_num bl.line] } rfl hfl]
    simp [EngineState.mk.injEq, List.append_assoc]
    omega

theorem C5_flush_no_candidates (cfg : Config Rec H) (hinv : cfg.inverse = false)
    (st : EngineState Rec H) (hc : st.sequence_candidates = [])
    (hfl : st.filtered_lines = []) :
    flush cfg st = Except.ok
      { st with
          line_buffer := ([] : List (BufferedLine Rec H)),
          output := st.output ++
            st.line_buffer.map (fun b => OutItem.trk b.input_line_num b.line),
          line_num_output := st.line_num_output + st.line_buffer.length } := by
  rw [flush]
  simp only [hc, hfl, List.filterMap_nil, List.foldlM_nil, List.filter_nil,
    List.length_nil, Nat.add_zero, pure_bind]
  have hd := C5_flush_drain_all cfg hinv st.line_buffer
    { st with sequence_candidates := ([] : List (CandId × Candidate H)),
              filtered_lines := ([] : List (Nat × Rec)) } rfl rfl
  rw [hd]

/-- C5: on empty input the run returns the unchanged initial state with all
statistics zero (any configuration); on input shorter than the window
(no filters, normal mode) every record is emitted unchanged in order,
skipped is zero, and total = emitted = the input length. -/
theorem C5_boundaries (cfg₀ cfg : Config Rec H) (input : List Rec)
    (hf : cfg.filter_patterns = []) (hinv : cfg.inverse = false)
    (hlen : input.length < cfg.window_size) :
    (run cfg₀ (initState Rec cfg₀) [] = (initState Rec cfg₀, Option.none) ∧
     get_stats (initState Rec cfg₀) =
       { total := 0, emitted := 0, skipped := 0, redundancy_pct := 0,
         unique_sequences := 0 }) ∧
    ((run cfg (initState Rec cfg) input).2 = Option.none ∧
     outLines (run cfg (initState Rec cfg) input).1.output = input ∧
     get_stats (run cfg (initState Rec cfg) input).1 =
       { total := input.length, emitted := input.length, skipped := 0,
         redundancy_pct := 0, unique_sequences := 0 }) := by
  constructor
  · exact ⟨rfl, rfl⟩
  · obtain ⟨st', hrun, hlb, hfl', hsc, hsr, hout, hsk, hlno, hlni⟩ :=
      C5_runAux_short cfg hf input (initState Rec cfg) (by simp [initState]; omega)
    have hlbn : st'.line_buffer.length = input.length := by
      have := congrArg List.length hlb
      simpa [initState] using this
    have hflush := C5_flush_no_candidates cfg hinv st'
      (by rw [hsc]; rfl) (by rw [hfl']; rfl)
    have hrun2 : run cfg (initState Rec cfg) input =
        ({ st' with
            line_buffer := ([] : List (BufferedLine Rec H)),
            output := st'.output ++
              st'.line_buffer.map (fun b => OutItem.trk b.input_line_num b.line),
            line_num_output := st'.line_num_output + st'.line_buffer.length },
          Option.none) := by
      rw [run, hrun]
      simp only [hflush]
    rw [hrun2]
    refine ⟨rfl, ?_, ?_⟩
    · -- outLines
      simp only [outLines, hout]
      show List.map _ (([] : List (OutItem Rec)) ++ _) = input
      rw [List.nil_append, List.map_map]
      have : st'.line_buffer.map (fun b => b.line) = input := by
        have := congrArg (List.map Prod.snd) hlb
        simpa [initState, List.map_map, List.enumFrom_map_snd] using this
      rw [← this]
      rfl
    · simp only [get_stats, hsk, hlno, hlni, hsr, hlbn]
      simp [initState]



/-- Witness for C5 at a window-2 inverse config (empty input) and a window-3
normal config on the two-record input a,b. -/
theorem C5_boundaries_witness :
    (run (strConfig 2 true) (initState String (strConfig 2 true)) [] =
        (initState String (strConfig 2 true), Option.none) ∧
     get_stats (initState String (strConfig 2 true)) =
       { total := 0, emitted := 0, skipped := 0, redundancy_pct := 0,
         unique_sequences := 0 }) ∧
    ((run (strConfig 3 false) (initState String (strConfig 3 false)) ["a", "b"]).2 =
        Option.none ∧
     outLines (run (strConfig 3 false) (initState String (strConfig 3 false))
         ["a", "b"]).1.output = ["a", "b"] ∧
     get_stats (run (strConfig 3 false) (initState String (strConfig 3 false))
         ["a", "b"]).1 =
       { total := 2, emitted := 2, skipped := 0, redundancy_pct := 0,
         unique_sequences := 0 }) :=
  C5_boundaries (strConfig 2 true) (strConfig 3 false) ["a", "b"] rfl rfl (by decide)

/-- C3 (amended): in every non-inverse configuration, the tracked records
emitted by a complete run (including a run stopped by an error) form a
subsequence of the tracked records of the input, with their input line
numbers, in the input's original order. -/
theorem C3_order_normal (cfg : Config Rec H) (hinv : cfg.inverse = false) (input : List Rec) :
    (trackedOut (run cfg (initState Rec cfg) input).1.output).Sublist
      (trackedIn cfg input) := by
  have h0 := runAux_pending cfg hinv input (initState Rec cfg)
  cases hr : runAux cfg (initState Rec cfg) input with
  | mk s e =>
    rw [hr] at h0
    have hbase : (pending_tracked s).Sublist (trackedIn cfg input) := by
      have hTI : trackedIn cfg input = trackedInFrom cfg 1 input := rfl
      rw [hTI]
      simpa [pending_tracked, initState, trackedOut] using h0
    cases e with
    | some err =>
      have hrun : run cfg (initState Rec cfg) input = (s, Option.some err) := by
        rw [run, hr]
      rw [hrun]
      exact (List.sublist_append_left _ _).trans hbase
    | none =>
      cases hfl : flush cfg s with
      | ok s₁ =>
        have hrun : run cfg (initState Rec cfg) input = (s₁, Option.none) := by
          rw [run, hr]
          simp only [hfl]
        rw [hrun]
        exact (List.sublist_append_left _ _).trans
          ((flush_pending cfg hinv s s₁ hfl).1.trans hbase)
      | error e2 =>
        have hrun : run cfg (initState Rec cfg) input = (s, Option.some e2) := by
          rw [run, hr]
          simp only [hfl]
        rw [hrun]
        exact (List.sublist_append_left _ _).trans hbase

/-- Witness for C3's amended order theorem on a concrete normal-mode run. -/
theorem C3_order_normal_witness :
    (trackedOut (run (strConfig 3 false) (initState String (strConfig 3 false))
        ["A", "B", "C", "D", "E", "A", "B", "C"]).1.output).Sublist
      (trackedIn (strConfig 3 false) ["A", "B", "C", "D", "E", "A", "B", "C"]) :=
  C3_order_normal (strConfig 3 false) rfl ["A", "B", "C", "D", "E", "A", "B", "C"]

end OrderLemmas

/-- C8: preloading one raw sequence splits it by the delimiter; when the
split has fewer records than the window the state is unchanged (silently
discarded), otherwise a `SequenceRecord` keyed by the first window
fingerprint and the supplied full-sequence hash is registered, carrying the
preloaded sentinel as `first_output_line`, the split length, and all
window-size window fingerprints. -/
theorem C8_preload {H : Type} [DecidableEq H]
    (cfg : Config String H) (lineFpPreload : String → H)
    (delimiter : String) (fsh : H) (raw : String) (st : EngineState String H) :
    ((pySplit raw delimiter).length < cfg.window_size →
       initialize_preloaded_sequences cfg lineFpPreload delimiter [(fsh, raw)] st = st) ∧
    (cfg.window_size ≤ (pySplit raw delimiter).length →
       ∃ tail,
         preload_window_hashes cfg lineFpPreload delimiter raw =
           cfg.hashWindow cfg.window_size
             (((pySplit raw delimiter).map lineFpPreload).take cfg.window_size) :: tail ∧
         initialize_preloaded_sequences cfg lineFpPreload delimiter [(fsh, raw)] st =
           { st with sequence_records :=
               (setA st.sequence_records
                 (cfg.hashWindow cfg.window_size
                   (((pySplit raw delimiter).map lineFpPreload).take cfg.window_size))
                 (setA ((getA st.sequence_records
                     (cfg.hashWindow cfg.window_size
                       (((pySplit raw delimiter).map lineFpPreload).take cfg.window_size))).getD [])
                   fsh
                   { first_window_hash :=
                       cfg.hashWindow cfg.window_size
                         (((pySplit raw delimiter).map lineFpPreload).take cfg.window_size)
                     full_sequence_hash := fsh
                     first_output_line := FOL.ninf
                     sequence_length := (pySplit raw delimiter).length
                     window_hashes :=
                       cfg.hashWindow cfg.window_size
                         (((pySplit raw delimiter).map lineFpPreload).take cfg.window_size) :: tail
                     subsequence_match_counts := [] })) } ∧
         ∃ r, getA ((getA (initialize_preloaded_sequences cfg lineFpPreload delimiter
                  [(fsh, raw)] st).sequence_records
                (cfg.hashWindow cfg.window_size
                  (((pySplit raw delimiter).map lineFpPreload).take cfg.window_size))).getD [])
              fsh = Option.some r ∧
           r.first_output_line = FOL.ninf ∧
           r.sequence_length = (pySplit raw delimiter).length ∧
           r.window_hashes = preload_window_hashes cfg lineFpPreload delimiter raw) := by
  constructor
  · intro hlt
    simp only [initialize_preloaded_sequences, List.foldl_cons, List.foldl_nil]
    rw [if_pos hlt]
  · intro hge
    have hwhs : preload_window_hashes cfg lineFpPreload delimiter raw =
        cfg.hashWindow cfg.window_size
          (((pySplit raw delimiter).map lineFpPreload).take cfg.window_size) ::
        (List.range ((pySplit raw delimiter).length - cfg.window_size)).map
          (fun i => cfg.hashWindow cfg.window_size
            ((((pySplit raw delimiter).map lineFpPreload).drop (i + 1)).take
              cfg.window_size)) := by
      simp only [preload_window_hashes, List.range_succ_eq_map, List.map_cons,
        List.map_map, List.drop_zero]
      rfl
    refine ⟨_, hwhs, ?_, ?_⟩
    · simp only [initialize_preloaded_sequences, List.foldl_cons, List.foldl_nil]
      rw [if_neg (Nat.not_lt.mpr hge), hwhs]
    · have hmain : initialize_preloaded_sequences cfg lineFpPreload delimiter
          [(fsh, raw)] st =
          { st with sequence_records :=
              (setA st.sequence_records
                (cfg.hashWindow cfg.window_size
                  (((pySplit raw delimiter).map lineFpPreload).take cfg.window_size))
                (setA ((getA st.sequence_records
                    (cfg.hashWindow cfg.window_size
                      (((pySplit raw delimiter).map lineFpPreload).take cfg.window_size))).getD [])
                  fsh
                  { first_window_hash :=
                      cfg.hashWindow cfg.window_size
                        (((pySplit raw delimiter).map lineFpPreload).take cfg.window_size)
                    full_sequence_hash := fsh
                    first_output_line := FOL.ninf
                    sequence_length := (pySplit raw delimiter).length
                    window_hashes := preload_window_hashes cfg lineFpPreload delimiter raw
                    subsequence_match_counts := [] })) } := by
        simp only [initialize_preloaded_sequences, List.foldl_cons, List.foldl_nil]
        rw [if_neg (Nat.not_lt.mpr hge)]
        rw [hwhs]
      rw [hmain]
      rw [show (getA (setA st.sequence_records
          (cfg.hashWindow cfg.window_size
            (((pySplit raw delimiter).map lineFpPreload).take cfg.window_size)) _)
          (cfg.hashWindow cfg.window_size
            (((pySplit raw delimiter).map lineFpPreload).take cfg.window_size))) =
          _ from getA_setA_self _ _ _, Option.getD_some, getA_setA_self]
      exact ⟨_, rfl, rfl, rfl, rfl⟩

/-- Witness for C8: a two-record preload is discarded and a four-record
preload is registered, at the concrete string instantiation. -/
theorem C8_preload_witness :
    (initialize_preloaded_sequences (strConfig 3 false) (fun s => s) "\n"
        [("P1", "X\nY")] (initState String (strConfig 3 false)) =
      initState String (strConfig 3 false)) ∧
    (∃ r, getA ((getA (initialize_preloaded_sequences (strConfig 3 false) (fun s => s) "\n"
            [("P2", "X\nY\nZ\nW")] (initState String (strConfig 3 false))).sequence_records
          (sWin 3 ["X", "Y", "Z"])).getD []) "P2" = Option.some r ∧
       r.first_output_line = FOL.ninf ∧
       r.sequence_length = 4 ∧
       r.window_hashes =
         preload_window_hashes (strConfig 3 false) (fun s => s) "\n" "X\nY\nZ\nW") := by
  constructor
  · exact (C8_preload (strConfig 3 false) (fun s => s) "\n" "P1" "X\nY"
      (initState String (strConfig 3 false))).1 (by decide)
  · obtain ⟨tail, h1, h2, r, h3, h4, h5, h6⟩ :=
      (C8_preload (strConfig 3 false) (fun s => s) "\n" "P2" "X\nY\nZ\nW"
        (initState String (strConfig 3 false))).2 (by decide)
    exact ⟨r, h3, h4, h5, h6⟩

set_option maxRecDepth 10000 in
/-- C1: feeding the eight records A,B,C,D,E,A,B,C one at a time through
`process_line` and then flushing (window 3, text mode, no filters, no
preloads, normal mode, default limits) raises no error, emits exactly
A,B,C,D,E in that order, reports skipped = 3 (total 8, emitted 5), and
records the A,B,C sequence in the library: one recorded sequence of length 3
whose only window fingerprint is the A,B,C window. -/
theorem C1_engine_scenario :
    ∃ st, run (strConfig 3 false) (initState String (strConfig 3 false))
        ["A", "B", "C", "D", "E", "A", "B", "C"] = (st, Option.none) ∧
      outLines st.output = ["A", "B", "C", "D", "E"] ∧
      (get_stats st).skipped = 3 ∧
      (get_stats st).total = 8 ∧
      (get_stats st).emitted = 5 ∧
      (get_stats st).unique_sequences = 1 ∧
      ∃ r, getA ((getA st.sequence_records (sWin 3 ["A", "B", "C"])).getD [])
          (sWin 3 [sWin 3 ["A", "B", "C"]]) = Option.some r ∧
        r.sequence_length = 3 ∧
        r.window_hashes = [sWin 3 ["A", "B", "C"]] ∧
        r.first_output_line = FOL.int 1 :=
  ⟨(run (strConfig 3 false) (initState String (strConfig 3 false))
      ["A", "B", "C", "D", "E", "A", "B", "C"]).1,
   by decide, by decide, by decide, by decide, by decide, by decide,
   { first_window_hash := sWin 3 ["A", "B", "C"]
     full_sequence_hash := sWin 3 [sWin 3 ["A", "B", "C"]]
     first_output_line := FOL.int 1
     sequence_length := 3
     window_hashes := [sWin 3 ["A", "B", "C"]]
     subsequence_match_counts := [(3, 1)] },
   by decide⟩
